import Mathlib

/-!
Verification of the Topological Constellation Architecture core
(`src/topology/tca_core.py`, `src/topology/tca_monitor.py`) of the Aurea
repository, as a shallow embedding in Lean 4.

Python floats are modelled by `ℝ`; the IEEE value `float('inf')` that
`SymbolicPosition.distance_to` can return is modelled by the distinguished
constructor `FloatVal.inf` of an option-like wrapper.  Python `dict`s are
modelled by association lists (`List (String × _)`) whose key lists are
nodup (a guarantee every Python `dict` provides); `dict.__setitem__` is
`dictSet` (replace the first matching key in place, else append) and
`dict.get` / `dict.__getitem__` is `aget` (first match).  Sets of strings
are modelled by membership in lists.  `datetime` metadata fields, which no
claim touches, are omitted from the node record.
-/

namespace Aurea

/-! ## Association-list helpers (Python `dict` semantics) -/

/-- Lookup in an association list: the value at the first matching key
(`d.get(k)` / `d[k]` on a Python dict, whose keys are unique). -/
def aget {α : Type} : List (String × α) → String → Option α
  | [], _ => none
  | (k', v) :: t, k => if k' = k then some v else aget t k

/-- `d[k] = v` on a Python dict: replace the value at the first matching
key, keeping its position, else append the binding at the end. -/
def dictSet {α : Type} : List (String × α) → String → α → List (String × α)
  | [], k, v => [(k, v)]
  | (k', v') :: t, k, v => if k' = k then (k, v) :: t else (k', v') :: dictSet t k v

/-- Apply `f` to the value stored at the first occurrence of key `k`
(no-op when the key is absent); models an in-place mutation of the object
stored under `k`. -/
def amodify {α : Type} : List (String × α) → String → (α → α) → List (String × α)
  | [], _, _ => []
  | (k', v) :: t, k, f => if k' = k then (k', f v) :: t else (k', v) :: amodify t k f

@[simp] theorem aget_nil {α : Type} (k : String) : aget ([] : List (String × α)) k = none := rfl

theorem aget_cons {α : Type} (k' k : String) (v : α) (t : List (String × α)) :
    aget ((k', v) :: t) k = if k' = k then some v else aget t k := rfl

theorem aget_dictSet_self {α : Type} (l : List (String × α)) (k : String) (v : α) :
    aget (dictSet l k v) k = some v := by
  induction l with
  | nil => simp [dictSet, aget]
  | cons hd t ih =>
      obtain ⟨k', v'⟩ := hd
      by_cases h : k' = k <;> simp [dictSet, aget, h, ih]

theorem aget_dictSet_ne {α : Type} (l : List (String × α)) (k k₀ : String) (v : α)
    (hne : k ≠ k₀) : aget (dictSet l k v) k₀ = aget l k₀ := by
  induction l with
  | nil => simp [dictSet, aget, hne]
  | cons hd t ih =>
      obtain ⟨k', v'⟩ := hd
      by_cases h : k' = k
      · subst h; simp [dictSet, aget, hne]
      · simp [dictSet, aget, h, ih]

theorem aget_amodify_self {α : Type} (l : List (String × α)) (k : String) (f : α → α) :
    aget (amodify l k f) k = (aget l k).map f := by
  induction l with
  | nil => simp [amodify]
  | cons hd t ih =>
      obtain ⟨k', v'⟩ := hd
      by_cases h : k' = k <;> simp [amodify, aget, h, ih]

theorem aget_amodify_ne {α : Type} (l : List (String × α)) (k k₀ : String) (f : α → α)
    (hne : k ≠ k₀) : aget (amodify l k f) k₀ = aget l k₀ := by
  induction l with
  | nil => simp [amodify]
  | cons hd t ih =>
      obtain ⟨k', v'⟩ := hd
      by_cases h : k' = k
      · subst h; simp [amodify, aget, hne]
      · simp [amodify, aget, h, ih]

theorem length_amodify {α : Type} (l : List (String × α)) (k : String) (f : α → α) :
    (amodify l k f).length = l.length := by
  induction l with
  | nil => rfl
  | cons hd t ih =>
      obtain ⟨k', v'⟩ := hd
      by_cases h : k' = k <;> simp [amodify, h, ih]

theorem length_dictSet_of_mem {α : Type} (l : List (String × α)) (k : String) (v : α)
    (h : aget l k ≠ none) : (dictSet l k v).length = l.length := by
  induction l with
  | nil => simp [aget] at h
  | cons hd t ih =>
      obtain ⟨k', v'⟩ := hd
      by_cases hk : k' = k
      · simp [dictSet, hk]
      · simp only [aget, hk, if_false] at h
        simp [dictSet, hk, ih h]

/-! ## `SymbolicPosition` and the symbolic distance metric
(`tca_core.py`, `SymbolicPosition`). -/

/-- A sparse semantic vector: a Python `dict` from label to float. -/
abbrev SemVec := List (String × ℝ)

/-- `v.get(d, 0)` on a semantic vector. -/
noncomputable def vget (v : SemVec) (d : String) : ℝ := (aget v d).getD 0

/-- The keys of a semantic vector, in insertion order. -/
def vkeys (v : SemVec) : List String := v.map Prod.fst

/-- `SymbolicPosition` of `tca_core.py`: position in symbolic space. -/
structure SymbolicPosition where
  semantic_vector : SemVec := []
  temporal_layer : ℝ := 0
  collapse_depth : ℝ := 0
  constellation_id : Option String := none
  orbital_center : Option String := none
  stability : ℝ := 1
  drift_velocity : SemVec := []

/-- Result of a Python float computation that may be the IEEE infinity
(`float('inf')`): either the infinite value or a finite real. -/
inductive FloatVal where
  | inf : FloatVal
  | val : ℝ → FloatVal

noncomputable instance : DecidableEq FloatVal := fun _ _ => Classical.dec _

theorem FloatVal.val_injective {x y : ℝ} (h : FloatVal.val x = FloatVal.val y) : x = y := by
  injection h

/-- Whether a `FloatVal` is a finite float. -/
def FloatVal.isFinite : FloatVal → Bool
  | .inf => false
  | .val _ => true

/-- The epsilon floor used by `distance_to` (`eps = 1e-8`). -/
noncomputable def eps : ℝ := 1e-8

/-- `common_dims = set(self.semantic_vector.keys()) & set(other.semantic_vector.keys())`;
realised as the keys of `a` that also occur in `b` (same set of labels). -/
def commonDims (a b : SemVec) : List String :=
  (vkeys a).filter (fun d => decide (d ∈ vkeys b))

/-- Sum of squares of all stored values of a vector
(`sum(v**2 for v in vec.values())`). -/
noncomputable def sumSq (v : SemVec) : ℝ := (v.map (fun p => p.2 ^ 2)).sum

/-- The dot product over the common dimensions only
(`sum(self.get(d,0) * other.get(d,0) for d in common_dims)`). -/
noncomputable def commonDot (a b : SemVec) : ℝ :=
  ((commonDims a b).map (fun d => vget a d * vget b d)).sum

/-- `SymbolicPosition.distance_to` of `tca_core.py`, line for line:
empty vector on either side returns `float('inf')`; no common dimensions
returns `1.0` immediately; otherwise inverted cosine similarity (common-dims
dot product over full-vector magnitudes floored at `eps`), plus
`0.1 * |Δtemporal_layer|` and `0.2 * |Δcollapse_depth|`, clamped above
by `2.0`. -/
noncomputable def distance_to (a b : SymbolicPosition) : FloatVal :=
  if a.semantic_vector = [] ∨ b.semantic_vector = [] then .inf
  else if commonDims a.semantic_vector b.semantic_vector = [] then .val 1
  else
    .val (min
      ((1 - commonDot a.semantic_vector b.semantic_vector /
          (max eps (Real.sqrt (sumSq a.semantic_vector)) *
           max eps (Real.sqrt (sumSq b.semantic_vector))))
        + |a.temporal_layer - b.temporal_layer| * 0.1
        + |a.collapse_depth - b.collapse_depth| * 0.2)
      2)

/-! ### Auxiliary facts about the distance metric -/

theorem sumSq_nonneg (v : SemVec) : 0 ≤ sumSq v := by
  apply List.sum_nonneg
  intro x hx
  obtain ⟨p, _, rfl⟩ := List.mem_map.mp hx
  positivity

theorem eps_pos : 0 < eps := by norm_num [eps]

/-- On a nodup-keyed vector, summing `vget v d ^ 2` over the keys gives the
sum of squares of the stored values. -/
theorem sum_vget_sq (v : SemVec) (hv : (vkeys v).Nodup) :
    ((vkeys v).map (fun d => vget v d ^ 2)).sum = sumSq v := by
  induction v with
  | nil => simp [vkeys, sumSq]
  | cons hd t ih =>
      obtain ⟨k, x⟩ := hd
      have hv' : (k :: vkeys t).Nodup := hv
      have hk : k ∉ vkeys t := (List.nodup_cons.mp hv').1
      have ht : (vkeys t).Nodup := (List.nodup_cons.mp hv').2
      have hmap : (vkeys t).map (fun d => vget ((k, x) :: t) d ^ 2)
          = (vkeys t).map (fun d => vget t d ^ 2) := by
        apply List.map_congr_left
        intro d hd
        have : k ≠ d := fun h => hk (h ▸ hd)
        simp [vget, aget, this]
      simp only [vkeys, List.map_cons, List.sum_cons, sumSq] at *
      rw [hmap, ih ht]
      simp [vget, aget, sumSq]

theorem commonDims_nodup (a b : SemVec) (ha : (vkeys a).Nodup) :
    (commonDims a b).Nodup := ha.filter _

theorem commonDims_toFinset (a b : SemVec) :
    (commonDims a b).toFinset = (vkeys a).toFinset ∩ (vkeys b).toFinset := by
  ext d
  simp [commonDims, List.mem_filter]

theorem commonDims_eq_nil_comm (a b : SemVec) :
    commonDims a b = [] ↔ commonDims b a = [] := by
  simp only [commonDims, List.filter_eq_nil_iff, decide_eq_true_eq]
  constructor <;> intro h d hd hd' <;> exact h d hd' hd

/-- The common-dims dot product as a `Finset` sum, for nodup keys. -/
theorem commonDot_eq_finset (a b : SemVec) (ha : (vkeys a).Nodup) :
    commonDot a b =
      ∑ d ∈ (vkeys a).toFinset ∩ (vkeys b).toFinset, vget a d * vget b d := by
  rw [commonDot, ← List.sum_toFinset _ (commonDims_nodup a b ha), commonDims_toFinset]

theorem commonDot_comm (a b : SemVec) (ha : (vkeys a).Nodup) (hb : (vkeys b).Nodup) :
    commonDot a b = commonDot b a := by
  rw [commonDot_eq_finset a b ha, commonDot_eq_finset b a hb, Finset.inter_comm]
  exact Finset.sum_congr rfl fun d _ => mul_comm _ _

/-- Key bound for the cosine-similarity step: the common-dims dot product is
at most the product of the floored full-vector magnitudes. -/
theorem commonDot_le_mags (a b : SemVec) (ha : (vkeys a).Nodup) (hb : (vkeys b).Nodup) :
    commonDot a b ≤
      max eps (Real.sqrt (sumSq a)) * max eps (Real.sqrt (sumSq b)) := by
  set S := (vkeys a).toFinset ∩ (vkeys b).toFinset with hS
  have hcs : commonDot a b ≤
      Real.sqrt (∑ d ∈ S, vget a d ^ 2) * Real.sqrt (∑ d ∈ S, vget b d ^ 2) := by
    rw [commonDot_eq_finset a b ha]
    exact Real.sum_mul_le_sqrt_mul_sqrt S (vget a) (vget b)
  have hsub : ∀ (v : SemVec), (vkeys v).Nodup → S ⊆ (vkeys v).toFinset →
      ∑ d ∈ S, vget v d ^ 2 ≤ sumSq v := by
    intro v hv hsubset
    calc ∑ d ∈ S, vget v d ^ 2
        ≤ ∑ d ∈ (vkeys v).toFinset, vget v d ^ 2 :=
          Finset.sum_le_sum_of_subset_of_nonneg hsubset (fun _ _ _ => by positivity)
      _ = sumSq v := by rw [List.sum_toFinset _ hv, sum_vget_sq v hv]
  have hA : Real.sqrt (∑ d ∈ S, vget a d ^ 2) ≤ max eps (Real.sqrt (sumSq a)) :=
    le_trans (Real.sqrt_le_sqrt (hsub a ha Finset.inter_subset_left)) (le_max_right _ _)
  have hB : Real.sqrt (∑ d ∈ S, vget b d ^ 2) ≤ max eps (Real.sqrt (sumSq b)) :=
    le_trans (Real.sqrt_le_sqrt (hsub b hb Finset.inter_subset_right)) (le_max_right _ _)
  refine le_trans hcs (mul_le_mul hA hB (Real.sqrt_nonneg _) ?_)
  exact le_trans (le_of_lt eps_pos) (le_max_left _ _)

/-- In the non-empty, common-dims branch, the computed similarity is ≤ 1. -/
theorem similarity_le_one (a b : SemVec) (ha : (vkeys a).Nodup) (hb : (vkeys b).Nodup) :
    commonDot a b / (max eps (Real.sqrt (sumSq a)) * max eps (Real.sqrt (sumSq b))) ≤ 1 := by
  have hpos : 0 < max eps (Real.sqrt (sumSq a)) * max eps (Real.sqrt (sumSq b)) :=
    mul_pos (lt_of_lt_of_le eps_pos (le_max_left _ _))
      (lt_of_lt_of_le eps_pos (le_max_left _ _))
  exact (div_le_one hpos).mpr (commonDot_le_mags a b ha hb)

/-! ### Sample positions used by witnesses and counterexamples -/

/-- Position with vector `{"x": 1.0}`. -/
noncomputable def posX : SymbolicPosition := { semantic_vector := [("x", 1)] }

/-- Position with vector `{"y": 0.5}`. -/
noncomputable def posY : SymbolicPosition := { semantic_vector := [("y", 1 / 2)] }

/-- Position with vector `{"x": 1.0, "y": 0.5}`. -/
noncomputable def posXY : SymbolicPosition := { semantic_vector := [("x", 1), ("y", 1 / 2)] }

/-- Position with an empty semantic vector. -/
noncomputable def posEmpty : SymbolicPosition := {}

/-- Position whose only stored weight is zero: `{"x": 0.0}`. -/
noncomputable def posZero : SymbolicPosition := { semantic_vector := [("x", 0)] }

/-- Position with vector `{"y": 1.0}` at temporal layer 5. -/
noncomputable def posYT : SymbolicPosition :=
  { semantic_vector := [("y", 1)], temporal_layer := 5 }

/-! ### C4 — symmetry of the distance metric -/

/-- C4: the distance function is symmetric, `distance(a,b) == distance(b,a)`,
for all positions `a` and `b` (including positions with empty semantic
vectors).  The nodup hypotheses record that semantic vectors are Python
dicts, whose keys are necessarily distinct. -/
theorem C4_distance_symmetric (a b : SymbolicPosition)
    (ha : (vkeys a.semantic_vector).Nodup) (hb : (vkeys b.semantic_vector).Nodup) :
    distance_to a b = distance_to b a := by
  unfold distance_to
  by_cases h1 : a.semantic_vector = [] ∨ b.semantic_vector = []
  · rw [if_pos h1, if_pos (or_comm.mp h1)]
  · rw [if_neg h1, if_neg (fun h => h1 (or_comm.mp h))]
    by_cases h2 : commonDims a.semantic_vector b.semantic_vector = []
    · rw [if_pos h2, if_pos ((commonDims_eq_nil_comm _ _).mp h2)]
    · rw [if_neg h2, if_neg (fun h => h2 ((commonDims_eq_nil_comm _ _).mp h))]
      rw [commonDot_comm a.semantic_vector b.semantic_vector ha hb,
        mul_comm (max eps (Real.sqrt (sumSq a.semantic_vector))) _,
        abs_sub_comm a.temporal_layer b.temporal_layer,
        abs_sub_comm a.collapse_depth b.collapse_depth]

/-- Witness for C4 at the concrete positions `{"x":1}` and `{"y":0.5}`. -/
theorem C4_distance_symmetric_witness : distance_to posX posY = distance_to posY posX :=
  C4_distance_symmetric posX posY (by decide) (by decide)

/-! ### C5 — self-distance -/

/-- C5 (amended): `distance(a,a) == 0` holds when `a.semantic_vector` is
non-empty **and** its magnitude reaches the epsilon floor
(`eps ≤ sqrt (sum of squared weights)`); below the floor the floored
denominator keeps the similarity away from 1. -/
theorem C5_self_distance_amended (a : SymbolicPosition)
    (ha : (vkeys a.semantic_vector).Nodup) (hne : a.semantic_vector ≠ [])
    (hmag : eps ≤ Real.sqrt (sumSq a.semantic_vector)) :
    distance_to a a = .val 0 := by
  unfold distance_to
  rw [if_neg (by simp [hne])]
  have hkeys : commonDims a.semantic_vector a.semantic_vector = vkeys a.semantic_vector :=
    List.filter_eq_self.mpr (fun d hd => by simpa using hd)
  have hkne : vkeys a.semantic_vector ≠ [] := fun h => hne (List.map_eq_nil_iff.mp h)
  rw [if_neg (by rw [hkeys]; exact hkne)]
  have hdot : commonDot a.semantic_vector a.semantic_vector = sumSq a.semantic_vector := by
    rw [commonDot, hkeys]
    have : (vkeys a.semantic_vector).map (fun d => vget a.semantic_vector d * vget a.semantic_vector d)
        = (vkeys a.semantic_vector).map (fun d => vget a.semantic_vector d ^ 2) := by
      apply List.map_congr_left
      intro d _
      rw [pow_two]
    rw [this, sum_vget_sq _ ha]
  have hmax : max eps (Real.sqrt (sumSq a.semantic_vector))
      = Real.sqrt (sumSq a.semantic_vector) := max_eq_right hmag
  have hpos : 0 < sumSq a.semantic_vector :=
    Real.sqrt_pos.mp (lt_of_lt_of_le eps_pos hmag)
  rw [hdot, hmax, Real.mul_self_sqrt (sumSq_nonneg _), div_self (ne_of_gt hpos)]
  norm_num

/-- Witness for C5 at the concrete position `{"x":1}`. -/
theorem C5_self_distance_amended_witness : distance_to posX posX = .val 0 := by
  refine C5_self_distance_amended posX (by decide) (by simp [posX]) ?_
  have : sumSq posX.semantic_vector = 1 := by norm_num [posX, sumSq]
  rw [this, Real.sqrt_one]
  norm_num [eps]

/-- Counterexample to C5 as stated: the position `{"x": 0.0}` has a
non-empty semantic vector, yet its self-distance is 1, not 0 — the floored
magnitude `eps` makes the similarity 0 rather than 1. -/
theorem C5_self_distance_counterexample :
    distance_to posZero posZero = .val 1 ∧ (1 : ℝ) ≠ 0 := by
  constructor
  · unfold distance_to
    rw [if_neg (by simp [posZero])]
    rw [if_neg (by decide)]
    have hdims : commonDims posZero.semantic_vector posZero.semantic_vector = ["x"] := by decide
    have hdot : commonDot posZero.semantic_vector posZero.semantic_vector = 0 := by
      rw [commonDot, hdims]
      simp [vget, aget, posZero]
    have hss : sumSq posZero.semantic_vector = 0 := by
      norm_num [posZero, sumSq]
    rw [hdot, hss, Real.sqrt_zero, max_eq_left (le_of_lt eps_pos)]
    norm_num
  · norm_num

/-! ### C6 — the no-common-labels case -/

/-- C6 (amended): when both semantic vectors are non-empty but share no
label, `distance_to` returns exactly `1.0`, skipping the temporal-layer and
collapse-depth adjustments (the code takes the early `return 1.0`). -/
theorem C6_no_overlap_amended (a b : SymbolicPosition)
    (hA : a.semantic_vector ≠ []) (hB : b.semantic_vector ≠ [])
    (hc : commonDims a.semantic_vector b.semantic_vector = []) :
    distance_to a b = .val 1 := by
  unfold distance_to
  rw [if_neg (by simp [hA, hB]), if_pos hc]

/-- Witness for C6 at `{"x":1}` (temporal 0) vs `{"y":1}` (temporal 5). -/
theorem C6_no_overlap_amended_witness : distance_to posX posYT = .val 1 :=
  C6_no_overlap_amended posX posYT (by simp [posX]) (by simp [posYT]) (by decide)

/-- Counterexample to C6 as stated: for `{"x":1}` at temporal layer 0 vs
`{"y":1}` at temporal layer 5 (no common labels), the claim predicts
`clamp(1.0 + 0.1*5 + 0.2*0) = 1.5`, but the code returns exactly `1.0`:
the adjustments are skipped in the no-overlap case. -/
theorem C6_no_overlap_counterexample :
    distance_to posX posYT = .val 1 ∧
      (1 : ℝ) ≠ min ((1 : ℝ) + |(0 : ℝ) - 5| * 0.1 + |(0 : ℝ) - 0| * 0.2) 2 := by
  refine ⟨C6_no_overlap_amended posX posYT (by simp [posX]) (by simp [posYT]) (by decide), ?_⟩
  rw [abs_of_nonpos (by norm_num), abs_of_nonneg (by norm_num)]
  norm_num

/-! ### C1 — sentinel and range of the distance metric -/

/-- C1 (amended): if either semantic vector is empty, `distance_to` returns
the IEEE infinity (`float('inf')`) — a true infinity, **not** a finite
sentinel; in every other case the returned distance is a finite value in
`[0, 2]`. -/
theorem C1_distance_range_amended (a b : SymbolicPosition)
    (ha : (vkeys a.semantic_vector).Nodup) (hb : (vkeys b.semantic_vector).Nodup) :
    (a.semantic_vector = [] ∨ b.semantic_vector = [] → distance_to a b = .inf) ∧
    (a.semantic_vector ≠ [] → b.semantic_vector ≠ [] →
      ∃ r, distance_to a b = .val r ∧ 0 ≤ r ∧ r ≤ 2) := by
  constructor
  · intro h
    unfold distance_to
    rw [if_pos h]
  · intro hA hB
    unfold distance_to
    rw [if_neg (by simp [hA, hB])]
    by_cases h2 : commonDims a.semantic_vector b.semantic_vector = []
    · rw [if_pos h2]
      exact ⟨1, rfl, by norm_num, by norm_num⟩
    · rw [if_neg h2]
      refine ⟨_, rfl, ?_, min_le_right _ _⟩
      apply le_min _ (by norm_num)
      have hsim := similarity_le_one a.semantic_vector b.semantic_vector ha hb
      have h1 : 0 ≤ 1 - commonDot a.semantic_vector b.semantic_vector /
          (max eps (Real.sqrt (sumSq a.semantic_vector)) *
           max eps (Real.sqrt (sumSq b.semantic_vector))) := by linarith
      positivity

/-- Witness for C1 (amended), empty-vector side, at a concrete pair. -/
theorem C1_distance_range_amended_witness : distance_to posEmpty posX = FloatVal.inf :=
  (C1_distance_range_amended posEmpty posX (by decide) (by decide)).1 (Or.inl rfl)

/-- Counterexample to C1 as stated: with an empty vector on one side the
code returns `float('inf')` — not a "clearly documented large finite
sentinel value": the result is not finite. -/
theorem C1_distance_range_counterexample :
    distance_to posEmpty posX = FloatVal.inf ∧
      FloatVal.isFinite (distance_to posEmpty posX) = false := by
  have h : distance_to posEmpty posX = FloatVal.inf := by
    unfold distance_to
    rw [if_pos (show posEmpty.semantic_vector = [] ∨ posX.semantic_vector = [] from Or.inl rfl)]
  exact ⟨h, by rw [h]; rfl⟩

/-! ## Nodes and gravitational force (`tca_core.py`, `ConstellationNode`) -/

/-- `NodeType` enum of `tca_core.py`. -/
inductive NodeType where
  | scar | doctrine | paradox | echo | anchor | suspension | void
  deriving DecidableEq

/-- `ConstellationType` enum of `tca_core.py`. -/
inductive ConstellationType where
  | identity | ethical | logical | empirical | creative | shadow | paradoxical
  deriving DecidableEq

/-- `ConstellationNode` of `tca_core.py`.  The `created_at`/`last_accessed`
datetime metadata (never read by any claim-relevant code path) is omitted. -/
structure ConstellationNode where
  id : String
  node_type : NodeType
  position : SymbolicPosition
  mass : ℝ := 1
  charge : ℝ := 0
  spin : ℝ := 0
  edges : List (String × ℝ) := []
  scar_bridges : List String := []
  access_count : ℕ := 0
  tags : List String := []

/-- The charge adjustment at the end of `gravitational_force_on`:
`force *= (1 + abs(c1*c2) * charge_factor * 0.5)` with
`charge_factor = -1` when the charges have the same sign, `1` otherwise,
applied only when both charges are nonzero. -/
noncomputable def applyCharge (self other : ConstellationNode) (force : ℝ) : ℝ :=
  if self.charge ≠ 0 ∧ other.charge ≠ 0 then
    force * (1 + |self.charge * other.charge| *
      (if self.charge * other.charge > 0 then -1 else 1) * 0.5)
  else force

/-- `ConstellationNode.gravitational_force_on` of `tca_core.py`:
distance 0 returns `float('inf')` ("collision"); otherwise
`F = 0.3 * m1 * m2 / d²` with the charge adjustment.  When the distance is
the IEEE infinity (empty vector on either side) the Python float division
yields `0.0`, which the charge factor then multiplies. -/
noncomputable def gravitational_force_on (self other : ConstellationNode) : FloatVal :=
  match distance_to self.position other.position with
  | .inf => .val (applyCharge self other 0)
  | .val d =>
      if d = 0 then .inf
      else .val (applyCharge self other (0.3 * (self.mass * other.mass) / d ^ 2))

/-! ### C2 — same-sign charge behaviour -/

/-- C2 (amended): when both nodes carry nonzero charges of the same sign,
the force returned by `gravitational_force_on` is the uncharged base force
`0.3 * m1 * m2 / d²` multiplied by `1 − 0.5·|c1·c2|` — and whenever the base
force is positive, the result is strictly **smaller** than the base force
(same-sign charge attenuates, never amplifies). -/
theorem C2_same_sign_charge_amended (n1 n2 : ConstellationNode)
    (h1 : n1.charge ≠ 0) (h2 : n2.charge ≠ 0) (hs : 0 < n1.charge * n2.charge)
    (d : ℝ) (hd : distance_to n1.position n2.position = .val d) (hdne : d ≠ 0) :
    gravitational_force_on n1 n2 =
      .val ((0.3 * (n1.mass * n2.mass) / d ^ 2) * (1 - |n1.charge * n2.charge| * 0.5)) ∧
    (0 < 0.3 * (n1.mass * n2.mass) / d ^ 2 →
      (0.3 * (n1.mass * n2.mass) / d ^ 2) * (1 - |n1.charge * n2.charge| * 0.5)
        < 0.3 * (n1.mass * n2.mass) / d ^ 2) := by
  constructor
  · unfold gravitational_force_on
    rw [hd]
    simp only [if_neg hdne]
    rw [applyCharge, if_pos ⟨h1, h2⟩, if_pos hs]
    ring_nf
  · intro hbase
    have habs : 0 < |n1.charge * n2.charge| := abs_pos.mpr (ne_of_gt hs)
    nlinarith

/-- Node `A`: vector `{"x":1}`, mass 1, charge 1. -/
noncomputable def nodeA : ConstellationNode :=
  { id := "A", node_type := .scar, position := posX, charge := 1 }

/-- Node `B`: vector `{"x":1}` at temporal layer 1, mass 1, charge 1. -/
noncomputable def nodeB : ConstellationNode :=
  { id := "B", node_type := .scar,
    position := { semantic_vector := [("x", 1)], temporal_layer := 1 }, charge := 1 }

/-- The distance between `nodeA` and `nodeB` is 0.1 (identical unit vectors,
temporal layers 0 and 1). -/
theorem distance_nodeA_nodeB : distance_to nodeA.position nodeB.position = .val 0.1 := by
  unfold distance_to
  rw [if_neg (by simp [nodeA, nodeB, posX])]
  rw [if_neg (by decide)]
  have hdims : commonDims nodeA.position.semantic_vector nodeB.position.semantic_vector
      = ["x"] := by decide
  have hdot : commonDot nodeA.position.semantic_vector nodeB.position.semantic_vector = 1 := by
    rw [commonDot, hdims]
    simp [vget, aget, nodeA, nodeB, posX]
  have hssA : sumSq nodeA.position.semantic_vector = 1 := by
    norm_num [nodeA, posX, sumSq]
  have hssB : sumSq nodeB.position.semantic_vector = 1 := by
    norm_num [nodeB, sumSq]
  rw [hdot, hssA, hssB, Real.sqrt_one, max_eq_right (by norm_num [eps])]
  have ht : |nodeA.position.temporal_layer - nodeB.position.temporal_layer| = 1 := by
    rw [show nodeA.position.temporal_layer = (0 : ℝ) from rfl,
      show nodeB.position.temporal_layer = (1 : ℝ) from rfl]
    rw [abs_of_nonpos (by norm_num)]
    norm_num
  have hc : |nodeA.position.collapse_depth - nodeB.position.collapse_depth| = 0 := by
    rw [show nodeA.position.collapse_depth = (0 : ℝ) from rfl,
      show nodeB.position.collapse_depth = (0 : ℝ) from rfl]
    norm_num
  rw [ht, hc]
  norm_num

/-- Counterexample to C2 as stated: `nodeA` and `nodeB` both have charge 1
(nonzero, same sign), distance 0.1, base force `0.3·1·1/0.1² = 30`; the code
returns 15, which is **not** strictly greater than the base force — the
same-sign charge factor halves the force instead of amplifying it. -/
theorem C2_same_sign_charge_counterexample :
    gravitational_force_on nodeA nodeB = .val 15 ∧ ¬ ((15 : ℝ) > 0.3 * (1 * 1) / (0.1 : ℝ) ^ 2) := by
  constructor
  · have h := (C2_same_sign_charge_amended nodeA nodeB (by norm_num [nodeA])
      (by norm_num [nodeB]) (by norm_num [nodeA, nodeB]) 0.1 distance_nodeA_nodeB
      (by norm_num)).1
    rw [h]
    have : (0.3 * (nodeA.mass * nodeB.mass) / (0.1 : ℝ) ^ 2) *
        (1 - |nodeA.charge * nodeB.charge| * 0.5) = 15 := by
      rw [show nodeA.mass = (1 : ℝ) from rfl, show nodeB.mass = (1 : ℝ) from rfl,
        show nodeA.charge = (1 : ℝ) from rfl, show nodeB.charge = (1 : ℝ) from rfl]
      rw [abs_of_nonneg (by norm_num)]
      norm_num
    rw [this]
  · norm_num

/-- Witness for C2 (amended) at the concrete pair `nodeA`, `nodeB`:
the charged force (15) is strictly below the base force (30). -/
theorem C2_same_sign_charge_amended_witness :
    gravitational_force_on nodeA nodeB =
      .val ((0.3 * (nodeA.mass * nodeB.mass) / (0.1 : ℝ) ^ 2) *
        (1 - |nodeA.charge * nodeB.charge| * 0.5)) ∧
    (0.3 * (nodeA.mass * nodeB.mass) / (0.1 : ℝ) ^ 2) *
        (1 - |nodeA.charge * nodeB.charge| * 0.5)
      < 0.3 * (nodeA.mass * nodeB.mass) / (0.1 : ℝ) ^ 2 := by
  have h := C2_same_sign_charge_amended nodeA nodeB (by norm_num [nodeA])
    (by norm_num [nodeB]) (by norm_num [nodeA, nodeB]) 0.1 distance_nodeA_nodeB (by norm_num)
  exact ⟨h.1, h.2 (by rw [show nodeA.mass = (1 : ℝ) from rfl,
    show nodeB.mass = (1 : ℝ) from rfl]; norm_num)⟩

/-! ## Constellations and the topological space (`tca_core.py`) -/

/-- `Constellation` of `tca_core.py`.  Its `nodes` dict holds non-owning
references to nodes owned by the space, so membership is modelled by the
insertion-ordered key list `nodeIds`; node data is read from the space's
store (the Python objects are aliases of the store's objects).
`created_at`/`last_reconfigured` metadata is omitted. -/
structure Constellation where
  id : String
  constellation_type : ConstellationType
  nodeIds : List String := []
  gravity_center : Option String := none
  total_mass : ℝ := 0
  avg_collapse_depth : ℝ := 0
  radius : ℝ := 1
  membrane_strength : ℝ := 1 / 2
  rotation_rate : ℝ := 0
  expansion_rate : ℝ := 0
  stability : ℝ := 1
  bridges : List (String × ℝ) := []

/-- `TopologicalSpace` of `tca_core.py` (the `filepath` handle is omitted;
persistence is modelled by `saveData`/`loadData` below). -/
structure TopologicalSpace where
  nodes : List (String × ConstellationNode) := []
  constellations : List (String × Constellation) := []
  void_zones : List SymbolicPosition := []
  wormholes : List (String × (String × String)) := []
  event_horizons : List String := []
  total_mass : ℝ := 0
  expansion_rate : ℝ := 0
  highest_gravity_point : Option String := none
  fragmentation_index : ℝ := 0
  total_edges : ℕ := 0

/-- `node.position.constellation_id = cid` — the in-place mutation performed
by `Constellation.add_node` on the shared node object. -/
def setCid (cid : String) (n : ConstellationNode) : ConstellationNode :=
  { n with position := { n.position with constellation_id := some cid } }

/-- `centrality = node.mass * len(node.edges)` used by
`_recalculate_center`; node data is read through the space's store. -/
noncomputable def centrality (s : TopologicalSpace) (nid : String) : ℝ :=
  match aget s.nodes nid with
  | some n => n.mass * n.edges.length
  | none => 0

/-- The collapse depth of a member node, read through the store. -/
noncomputable def collapseDepthOf (s : TopologicalSpace) (nid : String) : ℝ :=
  match aget s.nodes nid with
  | some n => n.position.collapse_depth
  | none => 0

/-- `Constellation._recalculate_center`: empty membership clears the
center; otherwise pick the first member of strictly maximal
`mass * degree` (strict `>` against an accumulator starting at `0`/`None`,
so an all-zero-centrality membership yields `None`), and recompute
`avg_collapse_depth` as the membership mean. -/
noncomputable def recalcCenter (s : TopologicalSpace) (c : Constellation) : Constellation :=
  if c.nodeIds = [] then { c with gravity_center := none }
  else
    { c with
      gravity_center := (c.nodeIds.foldl (fun acc nid =>
          if centrality s nid > acc.1 then (centrality s nid, some nid) else acc)
          ((0 : ℝ), (none : Option String))).2,
      avg_collapse_depth :=
        (c.nodeIds.map (collapseDepthOf s)).sum / c.nodeIds.length }

/-- `c.nodes[node.id] = node` on the membership key list: a dict insert
keeps an existing key's position, else appends. -/
def listDictSetId (ids : List String) (nid : String) : List String :=
  if nid ∈ ids then ids else ids ++ [nid]

/-- `Constellation.add_node(node)` where `node` is the space-owned node
stored under `nid` (every caller in `tca_core.py` passes
`self.nodes[node_id]`): insert into the membership map, set the shared
node's `position.constellation_id`, add its mass, recalculate the center.
Returns the updated space (shared-node mutation) and constellation. -/
noncomputable def constAddNodeCore (s : TopologicalSpace) (c : Constellation) (nid : String) :
    TopologicalSpace × Constellation :=
  match aget s.nodes nid with
  | none => (s, c)
  | some nd =>
      let s1 : TopologicalSpace := { s with nodes := amodify s.nodes nid (setCid c.id) }
      let c1 : Constellation :=
        { c with nodeIds := listDictSetId c.nodeIds nid, total_mass := c.total_mass + nd.mass }
      (s1, recalcCenter s1 c1)

/-- `Constellation.add_node` applied to the constellation registered under
`cid` in the space (in-place object mutation becomes value replacement). -/
noncomputable def constAddNode (s : TopologicalSpace) (cid nid : String) : TopologicalSpace :=
  match aget s.constellations cid with
  | none => s
  | some c =>
      let sc := constAddNodeCore s c nid
      { sc.1 with constellations := amodify sc.1.constellations cid (fun _ => sc.2) }

/-- The mass of the node stored under `nid` (the alias the constellation's
dict holds). -/
noncomputable def massOf (s : TopologicalSpace) (nid : String) : ℝ :=
  match aget s.nodes nid with
  | some n => n.mass
  | none => 0

/-- `Constellation.remove_node` applied to the constellation registered
under `cid`: if the node is a member, subtract its mass, delete it from the
membership map and recalculate the center.  The node itself — in
particular its `position.constellation_id` — is left untouched. -/
noncomputable def constRemoveNode (s : TopologicalSpace) (cid nid : String) : TopologicalSpace :=
  match aget s.constellations cid with
  | none => s
  | some c =>
      if nid ∈ c.nodeIds then
        { s with constellations := amodify s.constellations cid (fun _ =>
            recalcCenter s
              { c with nodeIds := c.nodeIds.filter (fun x => x ≠ nid),
                       total_mass := c.total_mass - massOf s nid }) }
      else s

/-- Python-float comparison `x < y` in the presence of `float('inf')`. -/
noncomputable def fvLt (x y : FloatVal) : Bool :=
  match x, y with
  | .inf, _ => false
  | .val _, .inf => true
  | .val a, .val b => decide (a < b)

/-- `TopologicalSpace._find_nearest_constellation`: scan constellations in
order, tracking the strictly smallest distance from the query position to a
registered gravity-center node; answer only if that minimum is < 2.0. -/
noncomputable def findNearestConstellation (s : TopologicalSpace)
    (position : SymbolicPosition) : Option String :=
  let acc := s.constellations.foldl (fun (acc : FloatVal × Option String) p =>
    match p.2.gravity_center with
    | some gc =>
        match aget s.nodes gc with
        | some center =>
            if fvLt (distance_to position center.position) acc.1 then
              (distance_to position center.position, some p.1)
            else acc
        | none => acc
    | none => acc) (.inf, none)
  if fvLt acc.1 (.val 2) then acc.2 else none

/-- `TopologicalSpace._find_optimal_position` with the `random.uniform`
jitter injected as an explicit function from label to sampled offset (the
spec requires the jitter source to be injectable for determinism). -/
noncomputable def findOptimalPosition (jitter : String → ℝ) (node_type : NodeType) :
    SymbolicPosition :=
  let seed : SemVec :=
    match node_type with
    | .scar => [("trauma", 0.7), ("memory", 0.8)]
    | .doctrine => [("truth", 0.9), ("structure", 0.7)]
    | .paradox => [("contradiction", 1.0), ("recursion", 0.8)]
    | _ => [("neutral", 0.5)]
  { semantic_vector := seed.map (fun p => (p.1, p.2 + jitter p.1)) }

/-- The position used by `add_node`: the given one, else the synthesized
type-seeded position. -/
noncomputable def addNodePos (jitter : String → ℝ) (node_type : NodeType)
    (positionOpt : Option SymbolicPosition) : SymbolicPosition :=
  match positionOpt with
  | some p => p
  | none => findOptimalPosition jitter node_type

/-- The node freshly constructed by `add_node` (all connection and charge
fields at their dataclass defaults). -/
noncomputable def freshNode (node_id : String) (node_type : NodeType)
    (position : SymbolicPosition) (mass : ℝ) : ConstellationNode :=
  { id := node_id, node_type := node_type, position := position, mass := mass }

/-- The first half of `add_node`: `self.nodes[node_id] = node` (a plain
dict assignment, silently replacing any existing node) and
`self.total_mass += mass`. -/
noncomputable def addNodeBase (jitter : String → ℝ) (s : TopologicalSpace) (node_id : String)
    (node_type : NodeType) (mass : ℝ) (positionOpt : Option SymbolicPosition) :
    TopologicalSpace :=
  { s with
    nodes := dictSet s.nodes node_id
      (freshNode node_id node_type (addNodePos jitter node_type positionOpt) mass),
    total_mass := s.total_mass + mass }

/-- `TopologicalSpace.add_node`: store the freshly built node, add its mass
to the space total, then join the named constellation if it exists, or —
when no constellation id was given — auto-join the nearest constellation
(if any is within the 2.0 threshold). -/
noncomputable def addNode (jitter : String → ℝ) (s : TopologicalSpace) (node_id : String)
    (node_type : NodeType) (mass : ℝ) (positionOpt : Option SymbolicPosition)
    (constellationIdOpt : Option String) : TopologicalSpace :=
  let s1 := addNodeBase jitter s node_id node_type mass positionOpt
  match constellationIdOpt with
  | some cid =>
      if (aget s1.constellations cid).isSome = true then constAddNode s1 cid node_id else s1
  | none =>
      match findNearestConstellation s1 (addNodePos jitter node_type positionOpt) with
      | some nearest => constAddNode s1 nearest node_id
      | none => s1

/-- `TopologicalSpace.create_edge`: no-op unless both ids exist and the
edge is absent (checked on one direction); otherwise write both directions
with the same weight and bump the undirected edge counter. -/
noncomputable def createEdge (s : TopologicalSpace) (node1_id node2_id : String)
    (weight : ℝ) : TopologicalSpace :=
  if ((aget s.nodes node1_id).isSome && (aget s.nodes node2_id).isSome) = true then
    match aget s.nodes node1_id with
    | none => s
    | some n1 =>
        if (aget n1.edges node2_id).isNone = true then
          let s1 : TopologicalSpace := { s with nodes := (amodify s.nodes node1_id
            (fun n => { n with edges := dictSet n.edges node2_id weight })) }
          let s2 : TopologicalSpace := { s1 with nodes := (amodify s1.nodes node2_id
            (fun n => { n with edges := dictSet n.edges node1_id weight })) }
          { s2 with total_edges := s2.total_edges + 1 }
        else s
  else s

/-- `TopologicalSpace.create_scar_bridge`: no-op unless both ids exist;
append each endpoint to the other's bridge list (no dedup) and record a
fresh wormhole entry. -/
noncomputable def createScarBridge (s : TopologicalSpace) (node1_id node2_id : String) :
    TopologicalSpace :=
  if ((aget s.nodes node1_id).isSome && (aget s.nodes node2_id).isSome) = true then
    let s1 : TopologicalSpace := { s with nodes := (amodify s.nodes node1_id
      (fun n => { n with scar_bridges := n.scar_bridges ++ [node2_id] })) }
    let s2 : TopologicalSpace := { s1 with nodes := (amodify s1.nodes node2_id
      (fun n => { n with scar_bridges := n.scar_bridges ++ [node1_id] })) }
    { s2 with wormholes :=
        s2.wormholes ++ [("bridge_" ++ toString s2.wormholes.length, (node1_id, node2_id))] }
  else s

/-- The `for node_id in node_ids: if node_id in self.nodes:
constellation.add_node(self.nodes[node_id])` loop shared by
`create_constellation` and `load_from_file`. -/
noncomputable def foldAddMembers (s : TopologicalSpace) (c : Constellation)
    (nids : List String) : TopologicalSpace × Constellation :=
  nids.foldl (fun (acc : TopologicalSpace × Constellation) nid =>
      if (aget acc.1.nodes nid).isSome = true then constAddNodeCore acc.1 acc.2 nid else acc)
    (s, c)

/-- `TopologicalSpace.create_constellation`: build the constellation, add
every existing node of `node_ids` to it (mutating those shared nodes), then
register it under `constellation_id`. -/
noncomputable def createConstellation (s : TopologicalSpace) (constellation_id : String)
    (constellation_type : ConstellationType) (node_ids : List String) : TopologicalSpace :=
  let sc := foldAddMembers s
    { id := constellation_id, constellation_type := constellation_type } node_ids
  { sc.1 with constellations := dictSet sc.1.constellations constellation_id sc.2 }

/-! ### Bookkeeping lemmas about the space operations -/

theorem amodify_of_aget_none {α : Type} (l : List (String × α)) (k : String) (f : α → α)
    (h : aget l k = none) : amodify l k f = l := by
  induction l with
  | nil => rfl
  | cons hd t ih =>
      obtain ⟨k', v⟩ := hd
      by_cases hk : k' = k
      · simp [aget, hk] at h
      · simp only [aget, hk, if_false] at h
        simp [amodify, hk, ih h]

/-- Total of the per-node masses held in the space's node store. -/
noncomputable def massSum (l : List (String × ConstellationNode)) : ℝ :=
  (l.map (fun p => p.2.mass)).sum

theorem massSum_amodify (l : List (String × ConstellationNode)) (k : String)
    (f : ConstellationNode → ConstellationNode) (hf : ∀ n, (f n).mass = n.mass) :
    massSum (amodify l k f) = massSum l := by
  induction l with
  | nil => rfl
  | cons hd t ih =>
      obtain ⟨k', v⟩ := hd
      by_cases hk : k' = k
      · simp only [amodify, hk, if_true, massSum, List.map_cons, List.sum_cons]
        rw [hf]
      · simp only [amodify, hk, if_false, massSum, List.map_cons, List.sum_cons] at ih ⊢
        rw [ih]

theorem massSum_dictSet (l : List (String × ConstellationNode)) (k : String)
    (v old : ConstellationNode) (h : aget l k = some old) :
    massSum (dictSet l k v) = massSum l - old.mass + v.mass := by
  induction l with
  | nil => simp [aget] at h
  | cons hd t ih =>
      obtain ⟨k', v'⟩ := hd
      by_cases hk : k' = k
      · simp only [aget, hk, if_true, Option.some.injEq] at h
        subst h
        simp [dictSet, hk, massSum]
        ring
      · simp only [aget, hk, if_false] at h
        simp only [dictSet, hk, if_false]
        simp only [massSum, List.map_cons, List.sum_cons] at ih ⊢
        rw [ih h]
        ring

theorem setCid_mass (cid : String) (n : ConstellationNode) : (setCid cid n).mass = n.mass := rfl

theorem recalcCenter_nodeIds (s : TopologicalSpace) (c : Constellation) :
    (recalcCenter s c).nodeIds = c.nodeIds := by
  unfold recalcCenter
  by_cases h : c.nodeIds = [] <;> simp [h]

theorem mem_listDictSetId (ids : List String) (nid : String) :
    nid ∈ listDictSetId ids nid := by
  unfold listDictSetId
  by_cases h : nid ∈ ids <;> simp [h]

theorem constAddNodeCore_fst_nodes (s : TopologicalSpace) (c : Constellation) (nid : String) :
    (constAddNodeCore s c nid).1.nodes = amodify s.nodes nid (setCid c.id) := by
  unfold constAddNodeCore
  cases h : aget s.nodes nid with
  | none => simp [amodify_of_aget_none _ _ _ h]
  | some nd => rfl

theorem constAddNodeCore_fst_total_mass (s : TopologicalSpace) (c : Constellation)
    (nid : String) : (constAddNodeCore s c nid).1.total_mass = s.total_mass := by
  unfold constAddNodeCore
  cases h : aget s.nodes nid <;> rfl

theorem constAddNodeCore_fst_constellations (s : TopologicalSpace) (c : Constellation)
    (nid : String) : (constAddNodeCore s c nid).1.constellations = s.constellations := by
  unfold constAddNodeCore
  cases h : aget s.nodes nid <;> rfl

theorem constAddNode_nodes (s : TopologicalSpace) (cid nid : String) :
    (constAddNode s cid nid).nodes = s.nodes ∨
      ∃ cidv, (constAddNode s cid nid).nodes = amodify s.nodes nid (setCid cidv) := by
  unfold constAddNode
  cases h : aget s.constellations cid with
  | none => exact Or.inl rfl
  | some c => exact Or.inr ⟨c.id, constAddNodeCore_fst_nodes s c nid⟩

theorem constAddNode_total_mass (s : TopologicalSpace) (cid nid : String) :
    (constAddNode s cid nid).total_mass = s.total_mass := by
  unfold constAddNode
  cases h : aget s.constellations cid with
  | none => rfl
  | some c => exact constAddNodeCore_fst_total_mass s c nid

theorem constAddNode_massSum (s : TopologicalSpace) (cid nid : String) :
    massSum (constAddNode s cid nid).nodes = massSum s.nodes := by
  rcases constAddNode_nodes s cid nid with h | ⟨cidv, h⟩
  · rw [h]
  · rw [h, massSum_amodify _ _ _ (setCid_mass cidv)]

theorem constAddNode_nodes_length (s : TopologicalSpace) (cid nid : String) :
    (constAddNode s cid nid).nodes.length = s.nodes.length := by
  rcases constAddNode_nodes s cid nid with h | ⟨cidv, h⟩
  · rw [h]
  · rw [h, length_amodify]

/-- The mass/edges/type/bridges content of any stored node is unchanged by
`constAddNode` (only `position.constellation_id` may change). -/
theorem constAddNode_aget_core (s : TopologicalSpace) (cid nid x : String) :
    Option.map (fun n => (n.mass, n.edges, n.node_type, n.scar_bridges))
        (aget (constAddNode s cid nid).nodes x)
      = Option.map (fun n => (n.mass, n.edges, n.node_type, n.scar_bridges))
        (aget s.nodes x) := by
  rcases constAddNode_nodes s cid nid with h | ⟨cidv, h⟩
  · rw [h]
  · rw [h]
    by_cases hx : x = nid
    · subst hx
      rw [aget_amodify_self]
      cases aget s.nodes x <;> rfl
    · rw [aget_amodify_ne _ _ _ _ (fun hh => hx hh.symm)]

theorem constRemoveNode_aget (s : TopologicalSpace) (cid nid : String) (c : Constellation)
    (hc : aget s.constellations cid = some c) :
    aget (constRemoveNode s cid nid).constellations cid =
      if nid ∈ c.nodeIds then
        some (recalcCenter s
          { c with nodeIds := c.nodeIds.filter (fun x => x ≠ nid),
                   total_mass := c.total_mass - massOf s nid })
      else some c := by
  unfold constRemoveNode
  rw [hc]
  simp only
  by_cases hmem : nid ∈ c.nodeIds
  · rw [if_pos hmem, if_pos hmem]
    simp only
    rw [aget_amodify_self, hc]
    rfl
  · rw [if_neg hmem, if_neg hmem, hc]

/-! ### C3 — the two membership views -/

/-- The two redundant membership views agree, as a boolean predicate over
the whole space: a node's `position.constellation_id` is `cid` exactly when
the node's id is in the membership map of the constellation stored at
`cid`. -/
def viewsAgreeB (s : TopologicalSpace) : Bool :=
  s.nodes.all (fun p => s.constellations.all (fun q =>
    decide (p.1 ∈ q.2.nodeIds) == decide (p.2.position.constellation_id = some q.1)))

/-- Node `n` of the C3 scenario: member of constellation `C`. -/
noncomputable def nodeC3 : ConstellationNode :=
  { id := "n", node_type := .scar,
    position := { semantic_vector := [("x", 1)], constellation_id := some "C" } }

/-- Constellation `C` of the C3 scenario, containing exactly `n`. -/
noncomputable def constC3 : Constellation :=
  { id := "C", constellation_type := .identity, nodeIds := ["n"], total_mass := 1 }

/-- A consistent space: one node `n`, one constellation `C` containing it,
both views in agreement. -/
noncomputable def spaceC3 : TopologicalSpace :=
  { nodes := [("n", nodeC3)], constellations := [("C", constC3)], total_mass := 1 }

/-- Counterexample to C3 as stated: starting from a space where the two
views agree, `Constellation.remove_node` deletes the node from the
membership map but leaves `position.constellation_id = "C"` in place, so
the two views disagree afterwards — the invariant is not preserved. -/
theorem C3_views_counterexample :
    viewsAgreeB spaceC3 = true ∧ viewsAgreeB (constRemoveNode spaceC3 "C" "n") = false := by
  constructor
  · decide
  · decide

/-- C3 (amended): what the operations actually guarantee.
`Constellation.add_node` establishes agreement for the target constellation
(the node is in its membership map and its `position.constellation_id` is
set to that constellation's id), but `Constellation.remove_node` only
removes the node from the membership map: the node's
`position.constellation_id` is left exactly as it was, so the redundant
views are not kept in agreement and a node is not guaranteed to belong to
at most one constellation. -/
theorem C3_membership_amended (s : TopologicalSpace) (cid nid : String)
    (c : Constellation) (nd : ConstellationNode)
    (hc : aget s.constellations cid = some c) (hcid : c.id = cid)
    (hn : aget s.nodes nid = some nd) :
    (∃ c', aget (constAddNode s cid nid).constellations cid = some c' ∧
        nid ∈ c'.nodeIds) ∧
    (∃ nd', aget (constAddNode s cid nid).nodes nid = some nd' ∧
        nd'.position.constellation_id = some cid) ∧
    (∃ nd'', aget (constRemoveNode s cid nid).nodes nid = some nd'' ∧
        nd''.position.constellation_id = nd.position.constellation_id) ∧
    (∀ c'', aget (constRemoveNode s cid nid).constellations cid = some c'' →
        nid ∉ c''.nodeIds) := by
  refine ⟨?_, ?_, ?_, ?_⟩
  · unfold constAddNode
    rw [hc]
    simp only
    rw [constAddNodeCore_fst_constellations, aget_amodify_self, hc]
    refine ⟨_, rfl, ?_⟩
    unfold constAddNodeCore
    rw [hn]
    simp only
    rw [recalcCenter_nodeIds]
    exact mem_listDictSetId _ _
  · unfold constAddNode
    rw [hc]
    simp only
    rw [constAddNodeCore_fst_nodes, hcid, aget_amodify_self, hn]
    exact ⟨_, rfl, rfl⟩
  · unfold constRemoveNode
    rw [hc]
    simp only
    by_cases hmem : nid ∈ c.nodeIds
    · rw [if_pos hmem]
      exact ⟨nd, hn, rfl⟩
    · rw [if_neg hmem]
      exact ⟨nd, hn, rfl⟩
  · intro c'' hc''
    rw [constRemoveNode_aget s cid nid c hc] at hc''
    by_cases hmem : nid ∈ c.nodeIds
    · rw [if_pos hmem] at hc''
      cases hc''
      rw [recalcCenter_nodeIds]
      simp
    · rw [if_neg hmem] at hc''
      cases hc''
      exact hmem

/-- Witness for C3 (amended) at the concrete consistent space: after
`Constellation.add_node`, the stored node's `position.constellation_id`
names the constellation. -/
theorem C3_membership_amended_witness :
    (aget (constAddNode spaceC3 "C" "n").nodes "n").map
        (fun nd => nd.position.constellation_id) = some (some "C") := by
  obtain ⟨-, ⟨nd', hnd', hcid⟩, -, -⟩ :=
    C3_membership_amended spaceC3 "C" "n" constC3 nodeC3 rfl rfl rfl
  rw [hnd']
  simp [hcid]

/-! ### C10 — `add_node` on an existing node id -/

/-- `add_node` always yields either the base space (store + mass update) or
that space passed through one `Constellation.add_node`. -/
theorem addNode_cases (jitter : String → ℝ) (s : TopologicalSpace) (node_id : String)
    (node_type : NodeType) (mass : ℝ) (positionOpt : Option SymbolicPosition)
    (constellationIdOpt : Option String) :
    addNode jitter s node_id node_type mass positionOpt constellationIdOpt
        = addNodeBase jitter s node_id node_type mass positionOpt ∨
      ∃ cid, addNode jitter s node_id node_type mass positionOpt constellationIdOpt
        = constAddNode (addNodeBase jitter s node_id node_type mass positionOpt) cid node_id := by
  cases constellationIdOpt with
  | some cid =>
      have hred : addNode jitter s node_id node_type mass positionOpt (some cid)
          = if (aget (addNodeBase jitter s node_id node_type mass
                positionOpt).constellations cid).isSome = true
            then constAddNode (addNodeBase jitter s node_id node_type mass positionOpt)
              cid node_id
            else addNodeBase jitter s node_id node_type mass positionOpt := rfl
      rw [hred]
      by_cases h : (aget (addNodeBase jitter s node_id node_type mass positionOpt).constellations
          cid).isSome = true
      · exact Or.inr ⟨cid, if_pos h⟩
      · exact Or.inl (if_neg h)
  | none =>
      have hred : addNode jitter s node_id node_type mass positionOpt none
          = match findNearestConstellation
              (addNodeBase jitter s node_id node_type mass positionOpt)
              (addNodePos jitter node_type positionOpt) with
            | some nearest =>
                constAddNode (addNodeBase jitter s node_id node_type mass positionOpt)
                  nearest node_id
            | none => addNodeBase jitter s node_id node_type mass positionOpt := rfl
      rw [hred]
      cases h : findNearestConstellation (addNodeBase jitter s node_id node_type mass positionOpt)
          (addNodePos jitter node_type positionOpt) with
      | none => exact Or.inl (by simp only [h])
      | some nearest => exact Or.inr ⟨nearest, by simp only [h]⟩

/-- C10 (amended): a call to `add_node` with a `node_id` already present
silently replaces the stored node by a freshly constructed one (default
empty edge list, the requested type and mass) and adds the new mass to
`total_mass` without subtracting the replaced node's mass; consequently,
whenever `total_mass` was consistent before the call and the replaced
node's mass is nonzero, `total_mass` no longer equals the sum of the stored
nodes' masses afterwards. -/
theorem C10_duplicate_add_amended (jitter : String → ℝ) (s : TopologicalSpace)
    (node_id : String) (node_type : NodeType) (mass : ℝ)
    (positionOpt : Option SymbolicPosition) (constellationIdOpt : Option String)
    (old : ConstellationNode)
    (hold : aget s.nodes node_id = some old) (hmass : old.mass ≠ 0)
    (hsum : s.total_mass = massSum s.nodes) :
    (addNode jitter s node_id node_type mass positionOpt constellationIdOpt).nodes.length
        = s.nodes.length ∧
    (∃ nd', aget (addNode jitter s node_id node_type mass positionOpt
        constellationIdOpt).nodes node_id = some nd' ∧
        nd'.mass = mass ∧ nd'.edges = [] ∧ nd'.node_type = node_type) ∧
    (addNode jitter s node_id node_type mass positionOpt constellationIdOpt).total_mass
        = s.total_mass + mass ∧
    (addNode jitter s node_id node_type mass positionOpt constellationIdOpt).total_mass
        ≠ massSum (addNode jitter s node_id node_type mass positionOpt
            constellationIdOpt).nodes := by
  have hbase_nodes : (addNodeBase jitter s node_id node_type mass positionOpt).nodes
      = dictSet s.nodes node_id
          (freshNode node_id node_type (addNodePos jitter node_type positionOpt) mass) := rfl
  have hbase_len : (addNodeBase jitter s node_id node_type mass positionOpt).nodes.length
      = s.nodes.length := by
    rw [hbase_nodes]
    exact length_dictSet_of_mem _ _ _ (by rw [hold]; exact fun h => Option.noConfusion h)
  have hbase_aget : aget (addNodeBase jitter s node_id node_type mass positionOpt).nodes node_id
      = some (freshNode node_id node_type (addNodePos jitter node_type positionOpt) mass) := by
    rw [hbase_nodes]
    exact aget_dictSet_self _ _ _
  have hbase_massSum : massSum (addNodeBase jitter s node_id node_type mass positionOpt).nodes
      = massSum s.nodes - old.mass + mass := by
    rw [hbase_nodes]
    exact massSum_dictSet _ _ _ _ hold
  have hbase_total : (addNodeBase jitter s node_id node_type mass positionOpt).total_mass
      = s.total_mass + mass := rfl
  have hne : massSum s.nodes + mass ≠ massSum s.nodes - old.mass + mass := by
    intro h
    apply hmass
    linarith
  rcases addNode_cases jitter s node_id node_type mass positionOpt constellationIdOpt
    with h | ⟨cid, h⟩
  · rw [h]
    refine ⟨hbase_len, ⟨_, hbase_aget, rfl, rfl, rfl⟩, hbase_total, ?_⟩
    rw [hbase_total, hbase_massSum, hsum]
    exact hne
  · rw [h]
    refine ⟨?_, ?_, ?_, ?_⟩
    · rw [constAddNode_nodes_length, hbase_len]
    · have hproj := constAddNode_aget_core
        (addNodeBase jitter s node_id node_type mass positionOpt) cid node_id node_id
      rw [hbase_aget] at hproj
      cases hagot : aget (constAddNode (addNodeBase jitter s node_id node_type mass positionOpt)
          cid node_id).nodes node_id with
      | none =>
          rw [hagot] at hproj
          simp [freshNode] at hproj
      | some nd' =>
          rw [hagot] at hproj
          simp [freshNode, Prod.mk.injEq] at hproj
          exact ⟨nd', rfl, hproj.1, hproj.2.1, hproj.2.2.1⟩
    · rw [constAddNode_total_mass, hbase_total]
    · rw [constAddNode_total_mass, constAddNode_massSum, hbase_total, hbase_massSum, hsum]
      exact hne

/-- A node of mass 0 stored under `"n"`. -/
noncomputable def nodeZeroMass : ConstellationNode :=
  { id := "n", node_type := .scar, position := posX, mass := 0 }

/-- A consistent space holding only the mass-0 node `"n"`. -/
noncomputable def spaceC10 : TopologicalSpace :=
  { nodes := [("n", nodeZeroMass)], total_mass := 0 }

/-- Counterexample to C10 as stated: replacing the mass-0 node `"n"` by a
fresh node of mass 1 adds 1 to `total_mass` without subtracting the old
mass — yet afterwards `total_mass` **does** equal the sum of stored masses
(both are 1), because the replaced node weighed nothing.  The claimed
consequence is not universal. -/
theorem C10_duplicate_add_counterexample :
    aget spaceC10.nodes "n" = some nodeZeroMass ∧
    spaceC10.total_mass = massSum spaceC10.nodes ∧
    (addNode (fun _ => 0) spaceC10 "n" .scar 1 (some posX) none).total_mass
      = massSum (addNode (fun _ => 0) spaceC10 "n" .scar 1 (some posX) none).nodes := by
  refine ⟨rfl, by simp [spaceC10, massSum, nodeZeroMass], ?_⟩
  have hred : addNode (fun _ => 0) spaceC10 "n" .scar 1 (some posX) none
      = addNodeBase (fun _ => 0) spaceC10 "n" .scar 1 (some posX) := by
    unfold addNode
    have : findNearestConstellation (addNodeBase (fun _ => 0) spaceC10 "n" .scar 1 (some posX))
        (addNodePos (fun _ => 0) .scar (some posX)) = none := rfl
    simp only [this]
  rw [hred]
  show spaceC10.total_mass + 1 = massSum (dictSet spaceC10.nodes "n"
    (freshNode "n" NodeType.scar (addNodePos (fun _ => 0) NodeType.scar (some posX)) 1))
  rw [massSum_dictSet spaceC10.nodes "n"
    (freshNode "n" NodeType.scar (addNodePos (fun _ => 0) NodeType.scar (some posX)) 1)
    nodeZeroMass rfl]
  simp [spaceC10, massSum, nodeZeroMass, freshNode]

/-- Witness for C10 (amended) at a concrete space holding a mass-1 node
`"m"` that gets replaced by a mass-2 node: afterwards `total_mass` is 3 but
the stored masses sum to 2. -/
theorem C10_duplicate_add_amended_witness :
    (addNode (fun _ => 0) { nodes := [("m", nodeA)], total_mass := 1 } "m" .echo 2
        (some posY) none).total_mass
      ≠ massSum (addNode (fun _ => 0) { nodes := [("m", nodeA)], total_mass := 1 } "m" .echo 2
        (some posY) none).nodes :=
  (C10_duplicate_add_amended (fun _ => 0) { nodes := [("m", nodeA)], total_mass := 1 }
    "m" .echo 2 (some posY) none nodeA rfl
    (by rw [show nodeA.mass = (1 : ℝ) from rfl]; norm_num)
    (by simp [massSum, nodeA])).2.2.2

/-! ## Persistence (`save_to_file` / `load_from_file`) -/

/-- The per-node record of the persisted map file.  `collapse_depth` may be
persisted as the string `"inf"` (encoded here as `none`) or as a float
(`some x`); `save_to_file` always writes the float. -/
structure SavedNode where
  ntype : NodeType
  mass : ℝ
  charge : ℝ
  spin : ℝ
  semantic_vector : SemVec
  temporal_layer : ℝ
  collapse_depth : Option ℝ
  constellation_id : Option String
  edges : List (String × ℝ)
  scar_bridges : List String
  tags : List String

/-- The per-constellation record of the persisted map file. -/
structure SavedConstellation where
  ctype : ConstellationType
  node_ids : List String
  gravity_center : Option String
  total_mass : ℝ
  stability : ℝ
  bridges : List (String × ℝ)

/-- The persisted map document (`nodes`, `constellations`, `wormholes`,
`metrics`). -/
structure SavedData where
  nodes : List (String × SavedNode)
  constellations : List (String × SavedConstellation)
  wormholes : List (String × (String × String))
  total_mass : ℝ
  total_edges : ℕ
  fragmentation_index : ℝ

/-- Serialization of one node by `save_to_file`. -/
noncomputable def saveNode (n : ConstellationNode) : SavedNode :=
  { ntype := n.node_type, mass := n.mass, charge := n.charge, spin := n.spin,
    semantic_vector := n.position.semantic_vector,
    temporal_layer := n.position.temporal_layer,
    collapse_depth := some n.position.collapse_depth,
    constellation_id := n.position.constellation_id,
    edges := n.edges, scar_bridges := n.scar_bridges, tags := n.tags }

/-- `TopologicalSpace.save_to_file`, as the document it writes. -/
noncomputable def saveData (s : TopologicalSpace) : SavedData :=
  { nodes := s.nodes.map (fun p => (p.1, saveNode p.2)),
    constellations := s.constellations.map (fun p => (p.1,
      { ctype := p.2.constellation_type, node_ids := p.2.nodeIds,
        gravity_center := p.2.gravity_center, total_mass := p.2.total_mass,
        stability := p.2.stability, bridges := p.2.bridges })),
    wormholes := s.wormholes,
    total_mass := s.total_mass, total_edges := s.total_edges,
    fragmentation_index := s.fragmentation_index }

/-- Deserialization of one node by `load_from_file`: the `"inf"` string for
`collapse_depth` becomes the finite sentinel `9.99`. -/
noncomputable def loadNode (node_id : String) (sn : SavedNode) : ConstellationNode :=
  { id := node_id, node_type := sn.ntype,
    position := { semantic_vector := sn.semantic_vector,
                  temporal_layer := sn.temporal_layer,
                  collapse_depth := match sn.collapse_depth with
                    | none => 9.99
                    | some x => x,
                  constellation_id := sn.constellation_id },
    mass := sn.mass, charge := sn.charge, spin := sn.spin,
    edges := sn.edges, scar_bridges := sn.scar_bridges, tags := sn.tags }

/-- Lexicographic code-point comparison of character lists — the string
order Python's `sorted` uses. -/
def charListLt : List Char → List Char → Bool
  | [], [] => false
  | [], _ :: _ => true
  | _ :: _, [] => false
  | c :: cs, d :: ds => if c < d then true else if d < c then false else charListLt cs ds

/-- Python string comparison `a < b` (lexicographic by code point). -/
def strLt (a b : String) : Bool := charListLt a.data b.data

/-- `sorted([node_id, edge_id])` on a 2-element list of strings (ascending;
equal strings stay in place). -/
def normPair (a b : String) : String × String := if strLt b a then (b, a) else (a, b)

/-- The recomputation of `total_edges` performed at the end of
`load_from_file`: count each unordered adjacency pair once, via a set of
normalized pairs. -/
def countPairs (adj : List (String × List String)) : ℕ :=
  (adj.foldl (fun acc p => p.2.foldl (fun acc2 e =>
      if normPair p.1 e ∈ acc2 then acc2 else normPair p.1 e :: acc2) acc) []).length

/-- The id → edge-key adjacency view of a node store. -/
def edgeKeyList (nodes : List (String × ConstellationNode)) : List (String × List String) :=
  nodes.map (fun p => (p.1, p.2.edges.map Prod.fst))

/-- The node-loading loop of `load_from_file`: `self.nodes[node_id] = node;
self.total_mass += node.mass` for each persisted node, in order. -/
noncomputable def loadNodesPhase : List (String × SavedNode) → TopologicalSpace →
    TopologicalSpace
  | [], acc => acc
  | p :: t, acc =>
      loadNodesPhase t
        { acc with nodes := dictSet acc.nodes p.1 (loadNode p.1 p.2),
                   total_mass := acc.total_mass + p.2.mass }

/-- The constellation-loading loop of `load_from_file`: rebuild each
constellation, re-add its members (which sets the shared nodes'
`constellation_id`), then overwrite `gravity_center`/`stability`/`bridges`
from the document and register it. -/
noncomputable def loadConstellations : List (String × SavedConstellation) →
    TopologicalSpace → TopologicalSpace
  | [], s => s
  | p :: t, s =>
      let sc := foldAddMembers s { id := p.1, constellation_type := p.2.ctype } p.2.node_ids
      loadConstellations t
        { sc.1 with constellations := (dictSet sc.1.constellations p.1
            { sc.2 with gravity_center := p.2.gravity_center,
                        stability := p.2.stability, bridges := p.2.bridges }) }

/-- `TopologicalSpace.load_from_file` applied to a freshly constructed
(empty) space: load nodes (accumulating `total_mass`), then constellations
(whose `add_node` calls set the shared nodes' `constellation_id`, after
which `gravity_center`/`stability`/`bridges` are overwritten from the
document), then wormholes; recompute `total_edges` from the loaded
adjacency; finally take `fragmentation_index` from the stored metrics. -/
noncomputable def loadData (d : SavedData) : TopologicalSpace :=
  let s1 := loadNodesPhase d.nodes {}
  let s2 := loadConstellations d.constellations s1
  let s3 := { s2 with wormholes := d.wormholes }
  let s4 := { s3 with total_edges := countPairs (edgeKeyList s3.nodes) }
  { s4 with fragmentation_index := d.fragmentation_index }

/-! ### Node-store shape preservation through constellation loading -/

/-- The (key, mass, edges) shape of a node store — everything the C8 claim
observes. -/
noncomputable def nodesShape (l : List (String × ConstellationNode)) :
    List (String × ℝ × List (String × ℝ)) :=
  l.map (fun p => (p.1, p.2.mass, p.2.edges))

theorem nodesShape_amodify_setCid (l : List (String × ConstellationNode)) (k cid : String) :
    nodesShape (amodify l k (setCid cid)) = nodesShape l := by
  induction l with
  | nil => rfl
  | cons hd t ih =>
      obtain ⟨k', v⟩ := hd
      by_cases hk : k' = k
      · simp [amodify, hk, nodesShape, setCid]
      · simp only [amodify, hk, if_false, nodesShape, List.map_cons] at ih ⊢
        rw [ih]

theorem constAddNodeCore_shape (s : TopologicalSpace) (c : Constellation) (nid : String) :
    nodesShape (constAddNodeCore s c nid).1.nodes = nodesShape s.nodes := by
  rw [constAddNodeCore_fst_nodes]
  exact nodesShape_amodify_setCid _ _ _

theorem foldAddMembers_shape (nids : List String) (s : TopologicalSpace) (c : Constellation) :
    nodesShape (foldAddMembers s c nids).1.nodes = nodesShape s.nodes := by
  induction nids generalizing s c with
  | nil => rfl
  | cons nid t ih =>
      show nodesShape (foldAddMembers
        (if (aget s.nodes nid).isSome = true then constAddNodeCore s c nid else (s, c)).1
        (if (aget s.nodes nid).isSome = true then constAddNodeCore s c nid else (s, c)).2
        t).1.nodes = nodesShape s.nodes
      by_cases h : (aget s.nodes nid).isSome = true
      · rw [if_pos h, ih, constAddNodeCore_shape]
      · rw [if_neg h, ih]

theorem loadConstellations_shape (ds : List (String × SavedConstellation))
    (s : TopologicalSpace) :
    nodesShape (loadConstellations ds s).nodes = nodesShape s.nodes := by
  induction ds generalizing s with
  | nil => rfl
  | cons hd t ih =>
      show nodesShape (loadConstellations t _).nodes = _
      rw [ih]
      show nodesShape (foldAddMembers s _ _).1.nodes = _
      rw [foldAddMembers_shape]

/-! ### C8 — the save→load round trip -/

theorem aget_append {α : Type} (l₁ l₂ : List (String × α)) (k : String) :
    aget (l₁ ++ l₂) k = match aget l₁ k with
      | some v => some v
      | none => aget l₂ k := by
  induction l₁ with
  | nil => simp [aget]
  | cons hd t ih =>
      obtain ⟨k', v⟩ := hd
      by_cases hk : k' = k <;> simp [aget, hk, ih]

theorem dictSet_of_aget_none {α : Type} (l : List (String × α)) (k : String) (v : α)
    (h : aget l k = none) : dictSet l k v = l ++ [(k, v)] := by
  induction l with
  | nil => rfl
  | cons hd t ih =>
      obtain ⟨k', v'⟩ := hd
      by_cases hk : k' = k
      · simp [aget, hk] at h
      · simp only [aget, hk, if_false] at h
        simp [dictSet, hk, ih h]

theorem aget_map_pair {α β : Type} (l : List (String × α)) (g : String → α → β) (k : String) :
    aget (l.map (fun p => (p.1, g p.1 p.2))) k = (aget l k).map (g k) := by
  induction l with
  | nil => rfl
  | cons hd t ih =>
      obtain ⟨k', v⟩ := hd
      by_cases hk : k' = k
      · subst hk
        simp [aget]
      · simp [aget, hk, ih]

/-- Under the dict guarantee (nodup keys), the node-loading loop appends
exactly the deserialized nodes. -/
theorem loadNodesPhase_nodes (dn : List (String × SavedNode)) (acc : TopologicalSpace)
    (hdisj : ∀ k ∈ dn.map Prod.fst, aget acc.nodes k = none)
    (hnd : (dn.map Prod.fst).Nodup) :
    (loadNodesPhase dn acc).nodes = acc.nodes ++ dn.map (fun p => (p.1, loadNode p.1 p.2)) := by
  induction dn generalizing acc with
  | nil => simp [loadNodesPhase]
  | cons p t ih =>
      obtain ⟨hp, hnd'⟩ := List.nodup_cons.mp hnd
      have hd0 : aget acc.nodes p.1 = none := hdisj p.1 (by simp)
      have hds : dictSet acc.nodes p.1 (loadNode p.1 p.2)
          = acc.nodes ++ [(p.1, loadNode p.1 p.2)] := dictSet_of_aget_none _ _ _ hd0
      have hkd : ∀ k ∈ List.map Prod.fst t,
          aget (dictSet acc.nodes p.1 (loadNode p.1 p.2)) k = none := by
        intro k hk
        have hkne : p.1 ≠ k := fun h => hp (h ▸ hk)
        rw [hds, aget_append, hdisj k (by simp [hk])]
        simp [aget, hkne]
      calc (loadNodesPhase (p :: t) acc).nodes
          = (loadNodesPhase t
              { acc with nodes := dictSet acc.nodes p.1 (loadNode p.1 p.2),
                         total_mass := acc.total_mass + p.2.mass }).nodes := rfl
        _ = dictSet acc.nodes p.1 (loadNode p.1 p.2)
              ++ List.map (fun p => (p.1, loadNode p.1 p.2)) t := ih _ hkd hnd'
        _ = acc.nodes ++ List.map (fun p => (p.1, loadNode p.1 p.2)) (p :: t) := by
              rw [hds]
              simp

theorem length_eq_of_shape (l₁ l₂ : List (String × ConstellationNode))
    (h : nodesShape l₁ = nodesShape l₂) : l₁.length = l₂.length := by
  have := congrArg List.length h
  simpa [nodesShape] using this

theorem aget_mass_of_shape (l₁ l₂ : List (String × ConstellationNode))
    (h : nodesShape l₁ = nodesShape l₂) (k : String) :
    (aget l₁ k).map (fun n => n.mass) = (aget l₂ k).map (fun n => n.mass) := by
  induction l₁ generalizing l₂ with
  | nil =>
      cases l₂ with
      | nil => rfl
      | cons q t₂ => simp [nodesShape] at h
  | cons p t ih =>
      cases l₂ with
      | nil => simp [nodesShape] at h
      | cons q t₂ =>
          simp only [nodesShape, List.map_cons, List.cons.injEq, Prod.mk.injEq] at h
          obtain ⟨⟨hkey, hmass, _⟩, htail⟩ := h
          by_cases hk : p.1 = k
          · rw [show aget (p :: t) k = some p.2 from by
                cases p; simp only [aget] at *; rw [if_pos hk],
              show aget (q :: t₂) k = some q.2 from by
                cases q; simp only [aget] at *; rw [if_pos (hkey ▸ hk)]]
            simp [hmass]
          · rw [show aget (p :: t) k = aget t k from by
                cases p; simp only [aget] at *; rw [if_neg hk],
              show aget (q :: t₂) k = aget t₂ k from by
                cases q; simp only [aget] at *; rw [if_neg (hkey ▸ hk)]]
            exact ih t₂ htail

theorem edgeKeyList_eq_shape (l : List (String × ConstellationNode)) :
    edgeKeyList l = (nodesShape l).map (fun q => (q.1, q.2.2.map Prod.fst)) := by
  simp [edgeKeyList, nodesShape, List.map_map]

theorem edgeKeyList_of_shape (l₁ l₂ : List (String × ConstellationNode))
    (h : nodesShape l₁ = nodesShape l₂) : edgeKeyList l₁ = edgeKeyList l₂ := by
  rw [edgeKeyList_eq_shape, edgeKeyList_eq_shape, h]

/-- C8: a `save_to_file` → `load_from_file` round trip into a fresh space
preserves the node count and every node's mass, and `total_edges` is
recomputed from the loaded adjacency (each unordered pair once); hence it
equals the original `total_edges` exactly when that matched the adjacency —
a drifted stored metric does not survive. -/
theorem C8_save_load_roundtrip (s : TopologicalSpace)
    (hnd : (s.nodes.map Prod.fst).Nodup) :
    (loadData (saveData s)).nodes.length = s.nodes.length ∧
    (∀ nid, (aget (loadData (saveData s)).nodes nid).map (fun n => n.mass)
        = (aget s.nodes nid).map (fun n => n.mass)) ∧
    (loadData (saveData s)).total_edges = countPairs (edgeKeyList s.nodes) ∧
    (s.total_edges = countPairs (edgeKeyList s.nodes) →
      (loadData (saveData s)).total_edges = s.total_edges) := by
  have hkeys : (saveData s).nodes.map Prod.fst = s.nodes.map Prod.fst := by
    simp [saveData, List.map_map]
  have hnd' : ((saveData s).nodes.map Prod.fst).Nodup := by rw [hkeys]; exact hnd
  have h1 : (loadNodesPhase (saveData s).nodes {}).nodes
      = (saveData s).nodes.map (fun p => (p.1, loadNode p.1 p.2)) := by
    have := loadNodesPhase_nodes (saveData s).nodes {} (fun k _ => rfl) hnd'
    simpa using this
  have hshape1 : nodesShape (loadNodesPhase (saveData s).nodes {}).nodes
      = nodesShape s.nodes := by
    rw [h1]
    show nodesShape ((s.nodes.map (fun p => (p.1, saveNode p.2))).map
      (fun p => (p.1, loadNode p.1 p.2))) = nodesShape s.nodes
    rw [List.map_map]
    unfold nodesShape
    rw [List.map_map]
    exact List.map_congr_left (fun p _ => rfl)
  have hshape : nodesShape (loadConstellations (saveData s).constellations
      (loadNodesPhase (saveData s).nodes {})).nodes = nodesShape s.nodes := by
    rw [loadConstellations_shape, hshape1]
  have hnodes : (loadData (saveData s)).nodes
      = (loadConstellations (saveData s).constellations
          (loadNodesPhase (saveData s).nodes {})).nodes := rfl
  have hedges : (loadData (saveData s)).total_edges
      = countPairs (edgeKeyList (loadConstellations (saveData s).constellations
          (loadNodesPhase (saveData s).nodes {})).nodes) := rfl
  refine ⟨?_, ?_, ?_, ?_⟩
  · rw [hnodes]
    exact length_eq_of_shape _ _ hshape
  · intro nid
    rw [hnodes]
    exact aget_mass_of_shape _ _ hshape nid
  · rw [hedges, edgeKeyList_of_shape _ _ hshape]
  · intro h
    rw [hedges, edgeKeyList_of_shape _ _ hshape, ← h]

/-- Node `"a"` of the round-trip witness space: mass 2, one edge to `"b"`. -/
noncomputable def nodeWa : ConstellationNode :=
  { id := "a", node_type := .scar, position := posX, mass := 2, edges := [("b", 1)] }

/-- Node `"b"` of the round-trip witness space: mass 3, one edge to `"a"`. -/
noncomputable def nodeWb : ConstellationNode :=
  { id := "b", node_type := .echo, position := posY, mass := 3, edges := [("a", 1)] }

/-- A space with one undirected edge but a drifted stored
`total_edges = 7`, and one constellation holding `"a"`. -/
noncomputable def constC8 : Constellation :=
  { id := "K", constellation_type := .logical, nodeIds := ["a"], total_mass := 2 }

/-- See `constC8`: the registered constellation of the witness space. -/
noncomputable def spaceC8 : TopologicalSpace :=
  { nodes := [("a", nodeWa), ("b", nodeWb)],
    constellations := [("K", constC8)],
    total_mass := 5, total_edges := 7 }

/-- Witness for C8 at `spaceC8`: the round trip keeps both nodes, and the
reloaded `total_edges` is the recomputed 1, not the drifted stored 7. -/
theorem C8_save_load_roundtrip_witness :
    (loadData (saveData spaceC8)).nodes.length = spaceC8.nodes.length ∧
    (loadData (saveData spaceC8)).total_edges = countPairs (edgeKeyList spaceC8.nodes) ∧
    countPairs (edgeKeyList spaceC8.nodes) = 1 ∧ spaceC8.total_edges = 7 := by
  have h := C8_save_load_roundtrip spaceC8 (by decide)
  exact ⟨h.1, h.2.2.1, by decide, by rfl⟩

/-! ## Monitor diagnostics (`tca_monitor.py`) -/

/-- An entry of the list returned by `TCAMonitor.detect_anomalies`,
carrying its discriminating `type` and payload. -/
inductive Anomaly where
  | orphaned_node (node_id : String)
  | unstable_constellation (constellation_id : String) (stability : ℝ)
  | extreme_gravity (node_id : String) (field_strength mass_strength : ℝ)
  | paradox_cascade_risk (paradox_count : ℕ) (total_mass : ℝ)

/-- The `severity` field attached to each anomaly kind. -/
def Anomaly.severity : Anomaly → String
  | .orphaned_node _ => "medium"
  | .unstable_constellation _ _ => "high"
  | .extreme_gravity _ _ _ => "high"
  | .paradox_cascade_risk _ _ => "critical"

/-- Whether an anomaly is the paradox-cascade-risk entry. -/
def Anomaly.isCascade : Anomaly → Bool
  | .paradox_cascade_risk _ _ => true
  | _ => false

/-- One entry of `_find_gravity_wells`. -/
structure GravityWell where
  node_id : String
  wtype : NodeType
  mass_strength : ℝ
  field_strength : ℝ
  constellation : Option String

/-- The field strength summed at a node by `_find_gravity_wells`:
`other.mass / distance²` over every *other* node with positive distance
(an infinite distance contributes `other.mass / inf² = 0.0`). -/
noncomputable def fieldStrengthAt (s : TopologicalSpace) (nid : String)
    (nd : ConstellationNode) : ℝ :=
  (s.nodes.map (fun q =>
    if q.1 ≠ nid then
      match distance_to nd.position q.2.position with
      | .inf => 0
      | .val d => if d > 0 then q.2.mass / d ^ 2 else 0
    else 0)).sum

/-- `TCAMonitor._find_gravity_wells`: nodes of mass > 5, ranked by actual
field strength (descending, stable), top 5. -/
noncomputable def findGravityWells (s : TopologicalSpace) : List GravityWell :=
  (((s.nodes.filter (fun p => decide (p.2.mass > 5))).map (fun p =>
      { node_id := p.1, wtype := p.2.node_type, mass_strength := p.2.mass,
        field_strength := fieldStrengthAt s p.1 p.2,
        constellation := p.2.position.constellation_id : GravityWell })).mergeSort
    (fun w1 w2 => decide (w1.field_strength ≥ w2.field_strength))).take 5

/-- The Paradox-type nodes of the space, in store order. -/
def paradoxNodes (s : TopologicalSpace) : List ConstellationNode :=
  (s.nodes.map Prod.snd).filter (fun n => decide (n.node_type = NodeType.paradox))

/-- The "designated paradox cluster" looked up by `detect_anomalies`: it is
found only if some Paradox node's `position.constellation_id` is the
literal `"paradox_void"` (the loop breaks at the first such node), and only
if a constellation is registered under that key. -/
def paradoxCluster (s : TopologicalSpace) : Option Constellation :=
  if (paradoxNodes s).any
      (fun n => decide (n.position.constellation_id = some "paradox_void")) then
    aget s.constellations "paradox_void"
  else none

/-- `TCAMonitor.detect_anomalies`: orphaned nodes, unstable constellations,
extreme gravity wells, then the paradox-cascade check, appended in that
order. -/
noncomputable def detectAnomalies (s : TopologicalSpace) : List Anomaly :=
  ((s.nodes.filter (fun p => p.2.edges.isEmpty && p.2.scar_bridges.isEmpty)).map
      (fun p => Anomaly.orphaned_node p.1))
  ++ ((s.constellations.filter (fun p => decide (p.2.stability < 0.3))).map
      (fun p => Anomaly.unstable_constellation p.1 p.2.stability))
  ++ (((findGravityWells s).filter (fun w => decide (w.field_strength > 50))).map
      (fun w => Anomaly.extreme_gravity w.node_id w.field_strength w.mass_strength))
  ++ (if 5 < (paradoxNodes s).length then
        match paradoxCluster s with
        | some c =>
            if c.total_mass > 30 then
              [Anomaly.paradox_cascade_risk (paradoxNodes s).length c.total_mass]
            else []
        | none => []
      else [])

/-- The number of cascade entries in `detect_anomalies` is exactly
determined by the cascade condition — the other three rules never produce
one. -/
theorem cascade_countP (s : TopologicalSpace) :
    (detectAnomalies s).countP (fun a => a.isCascade) =
      if 5 < (paradoxNodes s).length then
        match paradoxCluster s with
        | some c => if c.total_mass > 30 then 1 else 0
        | none => 0
      else 0 := by
  unfold detectAnomalies
  rw [List.countP_append, List.countP_append, List.countP_append]
  rw [List.countP_eq_zero.mpr (by
    intro a ha
    obtain ⟨p, -, rfl⟩ := List.mem_map.mp ha
    simp [Anomaly.isCascade])]
  rw [List.countP_eq_zero.mpr (by
    intro a ha
    obtain ⟨p, -, rfl⟩ := List.mem_map.mp ha
    simp [Anomaly.isCascade])]
  rw [List.countP_eq_zero.mpr (by
    intro a ha
    obtain ⟨p, -, rfl⟩ := List.mem_map.mp ha
    simp [Anomaly.isCascade])]
  simp only [Nat.zero_add]
  by_cases h5 : 5 < (paradoxNodes s).length
  · rw [if_pos h5, if_pos h5]
    cases hpc : paradoxCluster s with
    | none => rfl
    | some c =>
        show List.countP (fun a => a.isCascade)
            (if c.total_mass > 30 then
              [Anomaly.paradox_cascade_risk (paradoxNodes s).length c.total_mass] else [])
          = if c.total_mass > 30 then 1 else 0
        by_cases hm : c.total_mass > 30
        · rw [if_pos hm, if_pos hm]
          rfl
        · rw [if_neg hm, if_neg hm]
          rfl
  · rw [if_neg h5, if_neg h5]
    rfl

/-- C9 (amended): when more than 5 Paradox nodes exist, **some Paradox node
has `position.constellation_id = "paradox_void"`**, a constellation is
registered under `"paradox_void"`, and its `total_mass` exceeds 30, then
`detect_anomalies` contains the paradox-cascade-risk entry, whose severity
is `critical`. -/
theorem C9_paradox_cascade_amended (s : TopologicalSpace) (c : Constellation)
    (hcount : 5 < (paradoxNodes s).length)
    (hmem : (paradoxNodes s).any
      (fun n => decide (n.position.constellation_id = some "paradox_void")) = true)
    (hc : aget s.constellations "paradox_void" = some c)
    (hmass : c.total_mass > 30) :
    Anomaly.paradox_cascade_risk (paradoxNodes s).length c.total_mass
        ∈ detectAnomalies s ∧
    (Anomaly.paradox_cascade_risk (paradoxNodes s).length c.total_mass).severity
        = "critical" := by
  refine ⟨?_, rfl⟩
  have hpc : paradoxCluster s = some c := by
    unfold paradoxCluster
    rw [if_pos hmem, hc]
  unfold detectAnomalies
  refine List.mem_append_right _ ?_
  rw [if_pos hcount, hpc]
  show Anomaly.paradox_cascade_risk (paradoxNodes s).length c.total_mass ∈
    (if c.total_mass > 30 then
      [Anomaly.paradox_cascade_risk (paradoxNodes s).length c.total_mass] else [])
  rw [if_pos hmass]
  exact List.mem_singleton.mpr rfl

/-- A Paradox node joined to the `"paradox_void"` cluster. -/
noncomputable def paraNode (i : String) (m : ℝ) : ConstellationNode :=
  { id := i, node_type := .paradox,
    position := { semantic_vector := [("contradiction", 1)],
                  constellation_id := some "paradox_void" },
    mass := m }

/-- The `"paradox_void"` constellation holding the six paradox nodes,
combined mass 35. -/
noncomputable def constC9 : Constellation :=
  { id := "paradox_void", constellation_type := .paradoxical,
    nodeIds := ["p1", "p2", "p3", "p4", "p5", "p6"], total_mass := 35 }

/-- The C9 scenario space: 6 Paradox nodes all joined to the paradox
cluster, combined mass 35. -/
noncomputable def spaceC9 : TopologicalSpace :=
  { nodes := [("p1", paraNode "p1" 6), ("p2", paraNode "p2" 6), ("p3", paraNode "p3" 6),
              ("p4", paraNode "p4" 6), ("p5", paraNode "p5" 6), ("p6", paraNode "p6" 5)],
    constellations := [("paradox_void", constC9)],
    total_mass := 35 }

/-- Witness for C9 (amended) at the 6-node scenario. -/
theorem C9_paradox_cascade_amended_witness :
    Anomaly.paradox_cascade_risk (paradoxNodes spaceC9).length constC9.total_mass
        ∈ detectAnomalies spaceC9 ∧
    (Anomaly.paradox_cascade_risk (paradoxNodes spaceC9).length
        constC9.total_mass).severity = "critical" :=
  C9_paradox_cascade_amended spaceC9 constC9 (by decide) (by decide) rfl
    (by norm_num [constC9])

/-- A Paradox node that is not a member of any constellation. -/
noncomputable def loneParaNode (i : String) : ConstellationNode :=
  { id := i, node_type := .paradox,
    position := { semantic_vector := [("contradiction", 1)] } }

/-- A heavy Anchor node that carries the paradox cluster's mass. -/
noncomputable def heavyAnchor : ConstellationNode :=
  { id := "h", node_type := .anchor, position := posX, mass := 35 }

/-- The `"paradox_void"` cluster of the counterexample: mass 35, but its
only member is the Anchor node. -/
noncomputable def constC9bad : Constellation :=
  { id := "paradox_void", constellation_type := .paradoxical,
    nodeIds := ["h"], total_mass := 35 }

/-- Counterexample state: 6 Paradox nodes exist (none of them joined to
`"paradox_void"`), and the `"paradox_void"` cluster has `total_mass = 35 > 30`. -/
noncomputable def spaceC9bad : TopologicalSpace :=
  { nodes := [("q1", loneParaNode "q1"), ("q2", loneParaNode "q2"),
              ("q3", loneParaNode "q3"), ("q4", loneParaNode "q4"),
              ("q5", loneParaNode "q5"), ("q6", loneParaNode "q6"),
              ("h", heavyAnchor)],
    constellations := [("paradox_void", constC9bad)],
    total_mass := 41 }

/-- Counterexample to C9 as stated: more than 5 Paradox nodes exist and the
designated paradox cluster's `total_mass` exceeds 30, yet
`detect_anomalies` contains **no** cascade entry, because no Paradox node's
`constellation_id` is `"paradox_void"` — an extra condition the claim
omits. -/
theorem C9_paradox_cascade_counterexample :
    5 < (paradoxNodes spaceC9bad).length ∧
    aget spaceC9bad.constellations "paradox_void" = some constC9bad ∧
    constC9bad.total_mass > 30 ∧
    (detectAnomalies spaceC9bad).countP (fun a => a.isCascade) = 0 := by
  refine ⟨by decide, rfl, by norm_num [constC9bad], ?_⟩
  rw [cascade_countP]
  have hnone : paradoxCluster spaceC9bad = none := by
    unfold paradoxCluster
    rw [if_neg (by decide)]
  rw [if_pos (by decide), hnone]

/-! ## Path search (`TopologicalSpace.find_path`) -/

/-- The reserved bridge-hop token inserted into returned paths. -/
def scarTok : String := "[scar]"

/-- The weighted-edge neighbours of a node (edge dict keys, in order). -/
def edgeNbrs (s : TopologicalSpace) (nid : String) : List String :=
  match aget s.nodes nid with
  | some n => n.edges.map Prod.fst
  | none => []

/-- The scar-bridge neighbours of a node. -/
def bridgeNbrs (s : TopologicalSpace) (nid : String) : List String :=
  match aget s.nodes nid with
  | some n => n.scar_bridges
  | none => []

/-- One BFS expansion step: enqueue the unvisited edge neighbours (plain
paths) and then, if bridges are enabled, the unvisited bridge neighbours
(paths marked with the reserved token before the bridge endpoint). -/
def expand (s : TopologicalSpace) (ub : Bool) (visited : List String) (cur : String)
    (path : List String) : List (String × List String) :=
  ((edgeNbrs s cur).filter (fun n => decide (n ∉ visited))).map (fun n => (n, path ++ [n]))
  ++ ((if ub then bridgeNbrs s cur else []).filter (fun n => decide (n ∉ visited))).map
      (fun n => (n, path ++ [scarTok, n]))

/-- Number of node ids not yet visited (the primary termination measure). -/
def unvisitedCount (s : TopologicalSpace) (visited : List String) : ℕ :=
  ((s.nodes.map Prod.fst).filter (fun n => decide (n ∉ visited))).length

theorem filter_length_mono {α : Type} (l : List α) (p q : α → Bool)
    (h : ∀ x ∈ l, p x = true → q x = true) :
    (l.filter p).length ≤ (l.filter q).length := by
  induction l with
  | nil => simp
  | cons x t ih =>
      have ih' := ih (fun y hy => h y (List.mem_cons_of_mem x hy))
      simp only [List.filter_cons]
      by_cases hp : p x = true
      · rw [if_pos hp, if_pos (h x (by simp) hp)]
        simpa using ih'
      · rw [if_neg hp]
        by_cases hq : q x = true
        · rw [if_pos hq]
          exact le_trans ih' (by simp)
        · rw [if_neg hq]
          exact ih'

theorem filter_unvis_length_lt (l : List String) (V : List String) (c : String)
    (hc : c ∈ l) (hV : c ∉ V) :
    (l.filter (fun n => decide (n ∉ c :: V))).length
      < (l.filter (fun n => decide (n ∉ V))).length := by
  induction l with
  | nil => cases hc
  | cons x t ih =>
      have hmono : ∀ y ∈ t, decide (y ∉ c :: V) = true → decide (y ∉ V) = true := by
        intro y _ hy
        simp only [decide_eq_true_eq] at hy ⊢
        exact fun h => hy (List.mem_cons_of_mem c h)
      simp only [List.filter_cons]
      by_cases hx : x = c
      · subst hx
        rw [if_neg (by simp), if_pos (by simpa using hV)]
        exact Nat.lt_succ_of_le (filter_length_mono t _ _ hmono)
      · have hct : c ∈ t := by
          rcases List.mem_cons.mp hc with h | h
          · exact absurd h.symm hx
          · exact h
        have ih' := ih hct
        by_cases hx1 : decide (x ∉ c :: V) = true
        · rw [if_pos hx1, if_pos (show decide (x ∉ V) = true by
            simp only [decide_eq_true_eq] at hx1 ⊢
            exact fun h => hx1 (List.mem_cons_of_mem c h))]
          simpa using ih'
        · rw [if_neg hx1]
          refine lt_of_lt_of_le ih' ?_
          by_cases hx2 : decide (x ∉ V) = true
          · rw [if_pos hx2]
            simp
          · rw [if_neg hx2]

theorem unvisitedCount_cons_lt (s : TopologicalSpace) (visited : List String) (cur : String)
    (hmem : cur ∈ s.nodes.map Prod.fst) (hnv : cur ∉ visited) :
    unvisitedCount s (cur :: visited) < unvisitedCount s visited :=
  filter_unvis_length_lt _ _ _ hmem hnv

theorem aget_none_iff_not_mem {α : Type} (l : List (String × α)) (k : String) :
    aget l k = none ↔ k ∉ l.map Prod.fst := by
  induction l with
  | nil => simp [aget]
  | cons hd t ih =>
      obtain ⟨k', v⟩ := hd
      by_cases hk : k' = k
      · subst hk
        simp [aget]
      · rw [aget_cons, if_neg hk]
        simp only [List.map_cons, List.mem_cons]
        rw [ih]
        constructor
        · intro h hmem
          rcases hmem with h1 | h1
          · exact hk h1.symm
          · exact h h1
        · intro h h1
          exact h (Or.inr h1)

theorem unvisitedCount_cons_eq (s : TopologicalSpace) (visited : List String) (cur : String)
    (hmem : cur ∉ s.nodes.map Prod.fst) :
    unvisitedCount s (cur :: visited) = unvisitedCount s visited := by
  unfold unvisitedCount
  congr 1
  apply List.filter_congr
  intro x hx
  have hxc : x ≠ cur := fun h => hmem (h ▸ hx)
  simp [hxc]

theorem expand_eq_nil_of_missing (s : TopologicalSpace) (ub : Bool) (visited : List String)
    (cur : String) (path : List String) (h : aget s.nodes cur = none) :
    expand s ub visited cur path = [] := by
  unfold expand edgeNbrs bridgeNbrs
  rw [h]
  cases ub <;> simp

/-- The BFS loop of `find_path`: FIFO queue of `(node, path)` entries;
pop, return the path on reaching the goal, skip visited nodes, otherwise
mark visited and enqueue the expansion. -/
def bfsLoop (s : TopologicalSpace) (ub : Bool) (endId : String) :
    List String → List (String × List String) → Option (List String)
  | _, [] => none
  | visited, (cur, path) :: rest =>
      if cur = endId then some path
      else if cur ∈ visited then bfsLoop s ub endId visited rest
      else bfsLoop s ub endId (cur :: visited) (rest ++ expand s ub (cur :: visited) cur path)
termination_by visited queue => (unvisitedCount s visited, queue.length)
decreasing_by
  · apply Prod.Lex.right
    simp
  · by_cases hmem : cur ∈ s.nodes.map Prod.fst
    · exact Prod.Lex.left _ _ (unvisitedCount_cons_lt s visited cur hmem (by assumption))
    · rw [unvisitedCount_cons_eq s visited cur hmem,
        expand_eq_nil_of_missing s ub (cur :: visited) cur path
          ((aget_none_iff_not_mem _ _).mpr hmem)]
      apply Prod.Lex.right
      simp

/-- `TopologicalSpace.find_path`: `None` unless both endpoints exist, then
BFS from the start with the singleton initial queue. -/
def find_path (s : TopologicalSpace) (start_id end_id : String)
    (use_scar_bridges : Bool) : Option (List String) :=
  if (aget s.nodes start_id).isNone || (aget s.nodes end_id).isNone then none
  else bfsLoop s use_scar_bridges end_id [] [(start_id, [start_id])]

/-! ### BFS correctness: hop-minimality and bridge marking -/

/-- The neighbours enqueued from a node: weighted-edge neighbours, plus
bridge neighbours when bridges are enabled.  One traversal of either kind
is one hop. -/
def nbrs (s : TopologicalSpace) (ub : Bool) (u : String) : List String :=
  edgeNbrs s u ++ (if ub then bridgeNbrs s u else [])

/-- `Reach s ub start v k`: some walk of exactly `k` hops leads from
`start` to `v` over the enabled adjacency. -/
inductive Reach (s : TopologicalSpace) (ub : Bool) (start : String) : String → ℕ → Prop where
  | base : Reach s ub start start 0
  | step {u v : String} {k : ℕ} :
      Reach s ub start u k → v ∈ nbrs s ub u → Reach s ub start v (k + 1)

/-- `PathRepr s ub start p v k`: the list `p` is exactly the path
representation `find_path` builds for a `k`-hop walk from `start` to `v` —
each edge hop appends the node alone, each bridge hop appends the reserved
`"[scar]"` token and then the node (so every bridge hop, and only a bridge
hop, is marked). -/
inductive PathRepr (s : TopologicalSpace) (ub : Bool) (start : String) :
    List String → String → ℕ → Prop where
  | base : PathRepr s ub start [start] start 0
  | edge {p : List String} {u v : String} {k : ℕ} :
      PathRepr s ub start p u k → v ∈ edgeNbrs s u →
      PathRepr s ub start (p ++ [v]) v (k + 1)
  | bridge {p : List String} {u v : String} {k : ℕ} :
      PathRepr s ub start p u k → ub = true → v ∈ bridgeNbrs s u →
      PathRepr s ub start (p ++ [scarTok, v]) v (k + 1)

/-- Queue entries paired with their (ghost) hop counts. -/
abbrev BfsEntry := String × List String × ℕ

/-- Forget the ghost hop counts. -/
def toQ (E : List BfsEntry) : List (String × List String) := E.map (fun e => (e.1, e.2.1))

/-- The ghost-annotated version of `expand`. -/
def ghostNews (s : TopologicalSpace) (ub : Bool) (V : List String) (cur : String)
    (path : List String) (k0 : ℕ) : List BfsEntry :=
  ((edgeNbrs s cur).filter (fun n => decide (n ∉ V))).map (fun n => (n, path ++ [n], k0 + 1))
  ++ ((if ub then bridgeNbrs s cur else []).filter (fun n => decide (n ∉ V))).map
      (fun n => (n, path ++ [scarTok, n], k0 + 1))

theorem toQ_ghostNews (s : TopologicalSpace) (ub : Bool) (V : List String) (cur : String)
    (path : List String) (k0 : ℕ) :
    toQ (ghostNews s ub V cur path k0) = expand s ub V cur path := by
  simp only [toQ, ghostNews, expand, List.map_append, List.map_map]
  rfl

theorem toQ_append (E1 E2 : List BfsEntry) : toQ (E1 ++ E2) = toQ E1 ++ toQ E2 :=
  List.map_append _ _ _

/-- The BFS loop invariant, over the ghost-annotated queue `E` and the
visited set `V`. -/
structure BfsInv (s : TopologicalSpace) (ub : Bool) (start endId : String)
    (V : List String) (E : List BfsEntry) : Prop where
  repr : ∀ e ∈ E, PathRepr s ub start e.2.1 e.1 e.2.2
  sorted : (E.map (fun e => e.2.2)).Chain' (· ≤ ·)
  window : ∃ m, ∀ e ∈ E, m ≤ e.2.2 ∧ e.2.2 ≤ m + 1
  covered : ∃ d : String → ℕ, ∀ v ∈ V,
      (∀ k, Reach s ub start v k → d v ≤ k) ∧
      (∀ u ∈ nbrs s ub v, u ∈ V ∨ ∃ e ∈ E, e.1 = u ∧ e.2.2 ≤ d v + 1)
  startCov : start ∈ V ∨ ∃ e ∈ E, e.1 = start ∧ e.2.1 = [start] ∧ e.2.2 = 0
  endNotV : endId ∉ V

theorem chain_le_head {l : List ℕ} {a : ℕ} (h : (a :: l).Chain' (· ≤ ·)) :
    ∀ x ∈ a :: l, a ≤ x := by
  have hp := List.chain'_iff_pairwise.mp h
  intro x hx
  rcases List.mem_cons.mp hx with rfl | hx
  · exact le_refl _
  · exact (List.pairwise_cons.mp hp).1 x hx

/-- The head's hop count bounds below the length of every walk to an
unvisited node — the heart of BFS minimality. -/
theorem bfs_head_min (s : TopologicalSpace) (ub : Bool) (start endId : String)
    (V : List String) (e0 : BfsEntry) (E : List BfsEntry)
    (inv : BfsInv s ub start endId V (e0 :: E)) :
    ∀ w k, w ∉ V → Reach s ub start w k → e0.2.2 ≤ k := by
  intro w k hw hr
  revert hw
  induction hr with
  | base =>
      intro hw
      rcases inv.startCov with h | ⟨e, he, -, -, h3⟩
      · exact absurd h hw
      · have hle : e0.2.2 ≤ e.2.2 := by
          have hs := inv.sorted
          rw [List.map_cons] at hs
          exact chain_le_head hs e.2.2 (by
            rcases List.mem_cons.mp he with rfl | he'
            · exact List.mem_cons_self _ _
            · exact List.mem_cons_of_mem _ (List.mem_map_of_mem _ he'))
        omega
  | step hru hnb ih =>
      intro hv
      rename_i u v k'
      by_cases hu : u ∈ V
      · obtain ⟨d, hd⟩ := inv.covered
        obtain ⟨hdist, hcov⟩ := hd u hu
        rcases hcov v hnb with hvV | ⟨e, he, -, he2⟩
        · exact absurd hvV hv
        · have h1 : e0.2.2 ≤ e.2.2 := by
            have hs := inv.sorted
            rw [List.map_cons] at hs
            exact chain_le_head hs e.2.2 (by
              rcases List.mem_cons.mp he with rfl | he'
              · exact List.mem_cons_self _ _
              · exact List.mem_cons_of_mem _ (List.mem_map_of_mem _ he'))
          have h2 : d u ≤ k' := hdist k' hru
          omega
      · exact le_trans (ih hu) (Nat.le_succ k')

theorem chain_le_of_const (l : List ℕ) (c : ℕ) (h : ∀ x ∈ l, x = c) :
    l.Chain' (· ≤ ·) := by
  induction l with
  | nil => simp
  | cons x t ih =>
      cases t with
      | nil => simp
      | cons y t2 =>
          refine List.chain'_cons.mpr ⟨?_, ?_⟩
          · rw [h x (by simp), h y (by simp)]
          · exact ih (fun z hz => h z (List.mem_cons_of_mem _ hz))

/-- Discarding an already-visited head entry preserves the invariant. -/
theorem inv_tail_visited (s : TopologicalSpace) (ub : Bool) (start endId : String)
    (V : List String) (e0 : BfsEntry) (E : List BfsEntry)
    (inv : BfsInv s ub start endId V (e0 :: E)) (hv : e0.1 ∈ V) :
    BfsInv s ub start endId V E := by
  refine ⟨?_, ?_, ?_, ?_, ?_, inv.endNotV⟩
  · exact fun e he => inv.repr e (List.mem_cons_of_mem _ he)
  · have hs := inv.sorted
    rw [List.map_cons] at hs
    exact hs.tail
  · obtain ⟨m, hm⟩ := inv.window
    exact ⟨m, fun e he => hm e (List.mem_cons_of_mem _ he)⟩
  · obtain ⟨d, hd⟩ := inv.covered
    refine ⟨d, fun v hvV => ⟨(hd v hvV).1, fun u hu => ?_⟩⟩
    rcases (hd v hvV).2 u hu with h | ⟨e, he, h1, h2⟩
    · exact Or.inl h
    · rcases List.mem_cons.mp he with rfl | he'
      · exact Or.inl (h1 ▸ hv)
      · exact Or.inr ⟨e, he', h1, h2⟩
  · rcases inv.startCov with h | ⟨e, he, h1, h2, h3⟩
    · exact Or.inl h
    · rcases List.mem_cons.mp he with rfl | he'
      · exact Or.inl (h1 ▸ hv)
      · exact Or.inr ⟨e, he', h1, h2, h3⟩

theorem ghostNews_hops (s : TopologicalSpace) (ub : Bool) (V : List String) (cur : String)
    (path : List String) (k0 : ℕ) :
    ∀ e ∈ ghostNews s ub V cur path k0, e.2.2 = k0 + 1 := by
  intro e he
  rcases List.mem_append.mp he with h | h <;>
    · obtain ⟨n, -, rfl⟩ := List.mem_map.mp h
      rfl

/-- Visiting an unvisited, non-goal head entry and enqueuing its expansion
preserves the invariant. -/
theorem inv_step_new (s : TopologicalSpace) (ub : Bool) (start endId : String)
    (V : List String) (e0 : BfsEntry) (E : List BfsEntry)
    (inv : BfsInv s ub start endId V (e0 :: E)) (hnv : e0.1 ∉ V) (hne : e0.1 ≠ endId) :
    BfsInv s ub start endId (e0.1 :: V)
      (E ++ ghostNews s ub (e0.1 :: V) e0.1 e0.2.1 e0.2.2) := by
  have hrepr0 : PathRepr s ub start e0.2.1 e0.1 e0.2.2 := inv.repr e0 (List.mem_cons_self _ _)
  obtain ⟨m, hm⟩ := inv.window
  have hmk0 : m ≤ e0.2.2 := (hm e0 (List.mem_cons_self _ _)).1
  have htail_le : ∀ e ∈ E, e0.2.2 ≤ e.2.2 := by
    intro e he
    have hs := inv.sorted
    rw [List.map_cons] at hs
    exact chain_le_head hs e.2.2 (List.mem_cons_of_mem _ (List.mem_map_of_mem _ he))
  have htail_ub : ∀ e ∈ E, e.2.2 ≤ e0.2.2 + 1 := by
    intro e he
    have := (hm e (List.mem_cons_of_mem _ he)).2
    omega
  refine ⟨?_, ?_, ?_, ?_, ?_, ?_⟩
  · intro e he
    rcases List.mem_append.mp he with h | h
    · exact inv.repr e (List.mem_cons_of_mem _ h)
    · rcases List.mem_append.mp h with h2 | h2
      · obtain ⟨n, hn, rfl⟩ := List.mem_map.mp h2
        exact PathRepr.edge hrepr0 (List.mem_of_mem_filter hn)
      · obtain ⟨n, hn, rfl⟩ := List.mem_map.mp h2
        by_cases hub : ub = true
        · subst hub
          rw [if_pos rfl] at hn
          exact PathRepr.bridge hrepr0 rfl (List.mem_of_mem_filter hn)
        · rw [Bool.not_eq_true] at hub
          subst hub
          simp at hn
  · rw [List.map_append]
    refine List.chain'_append.mpr ⟨?_, ?_, ?_⟩
    · have hs := inv.sorted
      rw [List.map_cons] at hs
      exact hs.tail
    · apply chain_le_of_const _ (e0.2.2 + 1)
      intro x hx
      obtain ⟨e, he, rfl⟩ := List.mem_map.mp hx
      exact ghostNews_hops s ub _ _ _ _ e he
    · intro x hx y hy
      have hxm : x ∈ E.map (fun e => e.2.2) := List.mem_of_mem_getLast? hx
      obtain ⟨e, he, rfl⟩ := List.mem_map.mp hxm
      have hym : y ∈ (ghostNews s ub (e0.1 :: V) e0.1 e0.2.1 e0.2.2).map
          (fun e => e.2.2) := List.mem_of_mem_head? hy
      obtain ⟨e2, he2, rfl⟩ := List.mem_map.mp hym
      rw [ghostNews_hops s ub _ _ _ _ e2 he2]
      exact htail_ub e he
  · refine ⟨e0.2.2, fun e he => ?_⟩
    rcases List.mem_append.mp he with h | h
    · exact ⟨htail_le e h, htail_ub e h⟩
    · rw [ghostNews_hops s ub _ _ _ _ e h]
      omega
  · obtain ⟨d, hd⟩ := inv.covered
    have hnew : ∀ v ∈ e0.1 :: V,
        (∀ k, Reach s ub start v k → (if v = e0.1 then e0.2.2 else d v) ≤ k) ∧
        (∀ u ∈ nbrs s ub v, u ∈ e0.1 :: V ∨
          ∃ e ∈ E ++ ghostNews s ub (e0.1 :: V) e0.1 e0.2.1 e0.2.2,
            e.1 = u ∧ e.2.2 ≤ (if v = e0.1 then e0.2.2 else d v) + 1) := by
      intro v hv
      rcases List.mem_cons.mp hv with rfl | hvV
      · rw [if_pos rfl]
        refine ⟨fun k hk => bfs_head_min s ub start endId V e0 E inv e0.1 k hnv hk, ?_⟩
        intro u hu
        by_cases huV : u ∈ e0.1 :: V
        · exact Or.inl huV
        · right
          rcases List.mem_append.mp hu with hue | hub2
          · refine ⟨(u, e0.2.1 ++ [u], e0.2.2 + 1), ?_, rfl, le_refl _⟩
            refine List.mem_append_right _ (List.mem_append_left _ ?_)
            exact List.mem_map_of_mem _ (List.mem_filter.mpr ⟨hue, by simpa using huV⟩)
          · by_cases hub : ub = true
            · refine ⟨(u, e0.2.1 ++ [scarTok, u], e0.2.2 + 1), ?_, rfl, le_refl _⟩
              refine List.mem_append_right _ (List.mem_append_right _ ?_)
              subst hub
              refine List.mem_map_of_mem _ (List.mem_filter.mpr ⟨?_, by simpa using huV⟩)
              simpa using hub2
            · rw [Bool.not_eq_true] at hub
              rw [hub] at hub2
              simp at hub2
      · have hvne : v ≠ e0.1 := fun h => hnv (h ▸ hvV)
        rw [if_neg hvne]
        refine ⟨(hd v hvV).1, fun u hu => ?_⟩
        rcases (hd v hvV).2 u hu with h | ⟨e, he, h1, h2⟩
        · exact Or.inl (List.mem_cons_of_mem _ h)
        · rcases List.mem_cons.mp he with rfl | he'
          · exact Or.inl (h1 ▸ List.mem_cons_self _ _)
          · exact Or.inr ⟨e, List.mem_append_left _ he', h1, h2⟩
    exact ⟨fun x => if x = e0.1 then e0.2.2 else d x, hnew⟩
  · rcases inv.startCov with h | ⟨e, he, h1, h2, h3⟩
    · exact Or.inl (List.mem_cons_of_mem _ h)
    · rcases List.mem_cons.mp he with rfl | he'
      · exact Or.inl (h1 ▸ List.mem_cons_self _ _)
      · exact Or.inr ⟨e, List.mem_append_left _ he', h1, h2, h3⟩
  · intro h
    rcases List.mem_cons.mp h with h1 | h1
    · exact hne h1.symm
    · exact inv.endNotV h1

/-- Any result of the BFS loop, run from a state satisfying the invariant,
is a correctly marked representation of a walk to the goal whose hop count
is minimal among all walks to the goal. -/
theorem bfsLoop_minimal (s : TopologicalSpace) (ub : Bool) (start endId : String) :
    ∀ (V : List String) (Q : List (String × List String)),
      (∃ E, Q = toQ E ∧ BfsInv s ub start endId V E) →
      ∀ r, bfsLoop s ub endId V Q = some r →
      ∃ k, PathRepr s ub start r endId k ∧
        ∀ k2, Reach s ub start endId k2 → k ≤ k2 := by
  intro V Q
  induction V, Q using bfsLoop.induct s ub endId with
  | case1 x =>
      rintro - r hrun
      rw [bfsLoop] at hrun
      cases hrun
  | case2 visited path rest =>
      rintro ⟨E, hE, hinv⟩ r hrun
      have hred : bfsLoop s ub endId visited ((endId, path) :: rest) = some path := by
        rw [bfsLoop]
        simp
      rw [hred] at hrun
      obtain rfl : path = r := by injection hrun
      cases E with
      | nil => simp [toQ] at hE
      | cons e0 E' =>
          injection hE with h1 h2
          injection h1 with he1 he2
          have hrepr := hinv.repr e0 (List.mem_cons_self _ _)
          refine ⟨e0.2.2, ?_, ?_⟩
          · rw [he1, he2]
            exact hrepr
          · intro k2 hk2
            exact bfs_head_min s ub start endId visited e0 E' hinv endId k2 hinv.endNotV hk2
  | case3 visited cur path rest hne hmem ih =>
      rintro ⟨E, hE, hinv⟩ r hrun
      have hred : bfsLoop s ub endId visited ((cur, path) :: rest)
          = bfsLoop s ub endId visited rest := by
        rw [bfsLoop]
        rw [if_neg hne, if_pos hmem]
      rw [hred] at hrun
      cases E with
      | nil => simp [toQ] at hE
      | cons e0 E' =>
          injection hE with h1 h2
          injection h1 with he1 he2
          exact ih ⟨E', h2, inv_tail_visited s ub start endId visited e0 E' hinv
            (he1 ▸ hmem)⟩ r hrun
  | case4 visited cur path rest hne hnm ih =>
      rintro ⟨E, hE, hinv⟩ r hrun
      have hred : bfsLoop s ub endId visited ((cur, path) :: rest)
          = bfsLoop s ub endId (cur :: visited)
              (rest ++ expand s ub (cur :: visited) cur path) := by
        rw [bfsLoop]
        rw [if_neg hne, if_neg hnm]
      rw [hred] at hrun
      cases E with
      | nil => simp [toQ] at hE
      | cons e0 E' =>
          injection hE with h1 h2
          injection h1 with he1 he2
          subst he1
          subst he2
          subst h2
          exact ih ⟨E' ++ ghostNews s ub (e0.1 :: visited) e0.1 e0.2.1 e0.2.2,
            by rw [toQ_append, toQ_ghostNews]; rfl,
            inv_step_new s ub start endId visited e0 E' hinv hnm hne⟩ r hrun

/-- The initial BFS state satisfies the invariant. -/
theorem bfsInv_init (s : TopologicalSpace) (ub : Bool) (start endId : String) :
    BfsInv s ub start endId [] [(start, [start], 0)] := by
  refine ⟨?_, ?_, ?_, ?_, ?_, ?_⟩
  · intro e he
    rw [List.mem_singleton] at he
    subst he
    exact PathRepr.base
  · simp
  · exact ⟨0, by simp⟩
  · exact ⟨fun _ => 0, by simp⟩
  · exact Or.inr ⟨(start, [start], 0), List.mem_singleton.mpr rfl, rfl, rfl, rfl⟩
  · simp

/-- Whenever `find_path` returns a path, that path is the marked
representation of a hop-minimal walk from start to goal. -/
theorem find_path_minimal (s : TopologicalSpace) (start_id end_id : String) (ub : Bool)
    (r : List String) (h : find_path s start_id end_id ub = some r) :
    ∃ k, PathRepr s ub start_id r end_id k ∧
      ∀ k2, Reach s ub start_id end_id k2 → k ≤ k2 := by
  unfold find_path at h
  by_cases hc : ((aget s.nodes start_id).isNone || (aget s.nodes end_id).isNone) = true
  · rw [if_pos hc] at h
    cases h
  · rw [if_neg hc] at h
    exact bfsLoop_minimal s ub start_id end_id [] [(start_id, [start_id])]
      ⟨[(start_id, [start_id], 0)], rfl, bfsInv_init s ub start_id end_id⟩ r h

/-- A single-step unfolding of the BFS loop. -/
theorem bfsLoop_cons (s : TopologicalSpace) (ub : Bool) (endId : String)
    (visited : List String) (cur : String) (path : List String)
    (rest : List (String × List String)) :
    bfsLoop s ub endId visited ((cur, path) :: rest)
      = if cur = endId then some path
        else if cur ∈ visited then bfsLoop s ub endId visited rest
        else bfsLoop s ub endId (cur :: visited)
          (rest ++ expand s ub (cur :: visited) cur path) := by
  rw [bfsLoop]

/-! ### The C7 scenario: nodes A,B,C,D; edges A–B, B–C; scar bridge A–D -/

/-- A plain node used in the path-search scenario. -/
noncomputable def demoNode (i : String) : ConstellationNode :=
  { id := i, node_type := .echo, position := posX }

/-- The scenario space right after the four `add_node` calls. -/
noncomputable def demoNodes : TopologicalSpace :=
  { nodes := [("A", demoNode "A"), ("B", demoNode "B"),
              ("C", demoNode "C"), ("D", demoNode "D")],
    total_mass := 4 }

/-- The scenario space: edges A–B and B–C created, then the scar bridge
A–D. -/
noncomputable def demoSpace : TopologicalSpace :=
  createScarBridge (createEdge (createEdge demoNodes "A" "B" 1) "B" "C" 1) "A" "D"

/-- Node `A` after the scenario operations. -/
noncomputable def demoA : ConstellationNode :=
  { id := "A", node_type := .echo, position := posX, edges := [("B", 1)],
    scar_bridges := ["D"] }

/-- Node `B` after the scenario operations. -/
noncomputable def demoB : ConstellationNode :=
  { id := "B", node_type := .echo, position := posX, edges := [("A", 1), ("C", 1)] }

/-- Node `C` after the scenario operations. -/
noncomputable def demoC : ConstellationNode :=
  { id := "C", node_type := .echo, position := posX, edges := [("B", 1)] }

/-- Node `D` after the scenario operations. -/
noncomputable def demoD : ConstellationNode :=
  { id := "D", node_type := .echo, position := posX, scar_bridges := ["A"] }

theorem demoSpace_nodes : demoSpace.nodes
    = [("A", demoA), ("B", demoB), ("C", demoC), ("D", demoD)] := rfl

theorem demo_expand_A : expand demoSpace true ["A"] "A" ["A"]
    = [("B", ["A", "B"]), ("D", ["A", scarTok, "D"])] := rfl

theorem demo_expand_B : expand demoSpace true ["B", "A"] "B" ["A", "B"]
    = [("C", ["A", "B", "C"])] := rfl

theorem demo_expand_D : expand demoSpace true ["D", "B", "A"] "D" ["A", scarTok, "D"]
    = [] := rfl

theorem find_path_demo_AC : find_path demoSpace "A" "C" true = some ["A", "B", "C"] := by
  have h0 : find_path demoSpace "A" "C" true
      = bfsLoop demoSpace true "C" [] [("A", ["A"])] := by
    unfold find_path
    rw [if_neg (by rw [demoSpace_nodes]; simp [aget])]
  rw [h0, bfsLoop_cons, if_neg (by decide), if_neg (by decide), List.nil_append,
    demo_expand_A]
  rw [bfsLoop_cons, if_neg (by decide), if_neg (by decide)]
  rw [show [("D", ["A", scarTok, "D"])] ++ expand demoSpace true ["B", "A"] "B" ["A", "B"]
      = [("D", ["A", scarTok, "D"]), ("C", ["A", "B", "C"])] from by rw [demo_expand_B]; rfl]
  rw [bfsLoop_cons, if_neg (by decide), if_neg (by decide)]
  rw [show [("C", ["A", "B", "C"])] ++ expand demoSpace true ["D", "B", "A"] "D"
        ["A", scarTok, "D"]
      = [("C", ["A", "B", "C"])] from by rw [demo_expand_D]; rfl]
  rw [bfsLoop_cons, if_pos rfl]

theorem find_path_demo_AD : find_path demoSpace "A" "D" true
    = some ["A", scarTok, "D"] := by
  have h0 : find_path demoSpace "A" "D" true
      = bfsLoop demoSpace true "D" [] [("A", ["A"])] := by
    unfold find_path
    rw [if_neg (by rw [demoSpace_nodes]; simp [aget])]
  rw [h0, bfsLoop_cons, if_neg (by decide), if_neg (by decide), List.nil_append,
    demo_expand_A]
  rw [bfsLoop_cons, if_neg (by decide), if_neg (by decide)]
  rw [show [("D", ["A", scarTok, "D"])] ++ expand demoSpace true ["B", "A"] "B" ["A", "B"]
      = [("D", ["A", scarTok, "D"]), ("C", ["A", "B", "C"])] from by rw [demo_expand_B]; rfl]
  rw [bfsLoop_cons, if_pos rfl]

/-- C7: whenever `find_path` returns a path, that path represents (via
`PathRepr`, which marks every bridge hop — and only a bridge hop — with the
reserved `"[scar]"` token immediately before the bridge endpoint) a walk
from start to goal over the enabled adjacency whose hop count (bridge
traversals counting one hop each) is minimal among all such walks; and in
the concrete scenario — nodes A,B,C,D, edges A–B and B–C only, scar bridge
A–D — `find_path(A,C)` returns `[A,B,C]` and `find_path(A,D)` returns a
path containing the bridge-hop marker. -/
theorem C7_find_path_shortest :
    (∀ (s : TopologicalSpace) (start_id end_id : String) (ub : Bool) (r : List String),
      find_path s start_id end_id ub = some r →
      ∃ k, PathRepr s ub start_id r end_id k ∧
        ∀ k2, Reach s ub start_id end_id k2 → k ≤ k2) ∧
    find_path demoSpace "A" "C" true = some ["A", "B", "C"] ∧
    find_path demoSpace "A" "D" true = some ["A", scarTok, "D"] ∧
    scarTok ∈ ["A", scarTok, "D"] :=
  ⟨find_path_minimal, find_path_demo_AC, find_path_demo_AD, by simp⟩

/-- Witness for C7: the universal conjunct applied at the concrete scenario
call `find_path(A,C)`. -/
theorem C7_find_path_shortest_witness :
    ∃ k, PathRepr demoSpace true "A" ["A", "B", "C"] "C" k ∧
      ∀ k2, Reach demoSpace true "A" "C" k2 → k ≤ k2 :=
  C7_find_path_shortest.1 demoSpace "A" "C" true ["A", "B", "C"]
    C7_find_path_shortest.2.1

end Aurea
